import Mathlib

/-!
Verification of core algorithms of the TranslateBookWithLLM repository,
shallowly embedded over `List Char` (Python `str` values are modelled as
lists of characters; Python `dict`s with insertion order are modelled as
association lists).

Each embedded definition carries a comment naming the Python source
location it is translated from.
-/

set_option maxRecDepth 20000

/-! ## Generic Python-string primitives -/

/-- The set of characters treated as whitespace by Python `str.strip()`,
`str.split()` (no argument) and `re` `\s` on `str` patterns. -/
def pyWs (c : Char) : Bool :=
  c = ' ' || c = '\t' || c = '\n' || c = '\x0b' || c = '\x0c' || c = '\r' ||
  c = '\x1c' || c = '\x1d' || c = '\x1e' || c = '\x1f' || c = '\u0085' ||
  c = ' ' || c = ' ' || (' ' ≤ c && c ≤ ' ') ||
  c = ' ' || c = ' ' || c = ' ' || c = ' ' || c = '　'

/-- ASCII fragment of Python `str.isdigit` (per-character). -/
def pyIsDigitChar (c : Char) : Bool := '0' ≤ c && c ≤ '9'

/-- Python `s.isdigit()`: non-empty and all characters digits. -/
def pyIsDigit (s : List Char) : Bool := !s.isEmpty && s.all pyIsDigitChar

/-- Python `str.lstrip()`. -/
def pyStripLeft (s : List Char) : List Char := s.dropWhile pyWs

/-- Python `str.rstrip()`. -/
def pyStripRight (s : List Char) : List Char :=
  (s.reverse.dropWhile pyWs).reverse

/-- Python `str.strip()`. -/
def pyStrip (s : List Char) : List Char := pyStripRight (pyStripLeft s)

/-- Python `pat in s` (substring containment), scanning left to right. -/
def containsSub (s pat : List Char) : Bool :=
  match s with
  | [] => pat.isEmpty
  | _ :: rest => pat.isPrefixOf s || containsSub rest pat

/-- Index of the first occurrence of `pat` in `s` (Python `str.find` when
the pattern occurs). -/
def findSub (s pat : List Char) : Option Nat :=
  match s with
  | [] => if pat.isEmpty then some 0 else none
  | _ :: rest =>
    if pat.isPrefixOf s then some 0
    else (findSub rest pat).map (· + 1)

/-- Fuel-driven worker for Python `str.replace`: replace every
non-overlapping occurrence of `pat` by `rep`, scanning left to right. -/
def replF : Nat → List Char → List Char → List Char → List Char
  | 0, s, _, _ => s
  | _ + 1, [], _, _ => []
  | fuel + 1, c :: rest, pat, rep =>
    if !pat.isEmpty && pat.isPrefixOf (c :: rest) then
      rep ++ replF fuel ((c :: rest).drop pat.length) pat rep
    else
      c :: replF fuel rest pat rep

/-- Python `s.replace(pat, rep)` (for the non-empty patterns used in this
code base). -/
def replaceAll (s pat rep : List Char) : List Char := replF s.length s pat rep

/-- Fuel-driven worker for Python `s.split(sep)` with explicit non-empty
separator: splits at every non-overlapping occurrence, keeping empty
pieces. -/
def splitF : Nat → List Char → List Char → List Char → List (List Char)
  | 0, s, _, acc => [acc.reverse ++ s]
  | _ + 1, [], _, acc => [acc.reverse]
  | fuel + 1, c :: rest, sep, acc =>
    if !sep.isEmpty && sep.isPrefixOf (c :: rest) then
      acc.reverse :: splitF fuel ((c :: rest).drop sep.length) sep []
    else
      splitF fuel rest sep (c :: acc)

/-- Python `s.split(sep)` for a non-empty separator. -/
def splitOnSep (s sep : List Char) : List (List Char) := splitF s.length s sep []

/-- `'\n'.join`-style joining of pieces with a separator. -/
def joinWith (sep : List Char) : List (List Char) → List Char
  | [] => []
  | [x] => x
  | x :: y :: rest => x ++ sep ++ joinWith sep (y :: rest)

/-- Prepend pending accumulator text onto the first piece of a split
result (the shape `splitF` produces while scanning). -/
def consPiece (a : List Char) : List (List Char) → List (List Char)
  | [] => [a]
  | x :: xs => (a ++ x) :: xs

/-- Fuel-driven worker for Python `str.split()` with no argument: split on
whitespace runs, discarding empty words. -/
def splitWsF : Nat → List Char → List (List Char)
  | 0, _ => []
  | _ + 1, [] => []
  | fuel + 1, c :: rest =>
    if pyWs c then splitWsF fuel rest
    else
      let w := (c :: rest).takeWhile (fun d => !pyWs d)
      w :: splitWsF fuel ((c :: rest).dropWhile (fun d => !pyWs d))

/-- Python `s.split()` (no argument). -/
def pySplitWords (s : List Char) : List (List Char) := splitWsF s.length s

/-- Decimal digit character for `n < 10`. -/
def digitChar : Nat → Char
  | 0 => '0' | 1 => '1' | 2 => '2' | 3 => '3' | 4 => '4'
  | 5 => '5' | 6 => '6' | 7 => '7' | 8 => '8' | 9 => '9'
  | _ + 10 => '*'

/-- Fuel-driven decimal rendering of a natural number. -/
def natDigitsF : Nat → Nat → List Char
  | 0, _ => []
  | fuel + 1, n =>
    if n < 10 then [digitChar n]
    else natDigitsF fuel (n / 10) ++ [digitChar (n % 10)]

/-- Decimal rendering of a natural number (Python `str(n)` / f-string
interpolation of a non-negative `int`). -/
def natDigits (n : Nat) : List Char := natDigitsF (n + 1) n

/-- Decimal parsing of a digit list (used only in proofs, to invert
`natDigits`). -/
def digitsToNat (s : List Char) : Nat :=
  s.foldl (fun acc c => acc * 10 + (c.toNat - 48)) 0

/-! ## Tag Preserver (src/src/core/epub_processor.py, class TagPreserver) -/

/-- The placeholder string `⟦TAGn⟧` built by `TagPreserver.preserve_tags`
(`self.placeholder_prefix + str(counter) + self.placeholder_suffix`). -/
def tok (n : Nat) : List Char := '⟦' :: 'T' :: 'A' :: 'G' :: (natDigits n ++ ['⟧'])

/-- Attempt to read a regex match of `<[^>]+>` at the head of `'<' :: rest`:
the greedy body is every character up to the first `'>'`, which must be
non-empty and followed by `'>'`. Returns the body and the remainder after
the closing `'>'`. -/
def takeTagBody (rest : List Char) : Option (List Char × List Char) :=
  let body := rest.takeWhile (· ≠ '>')
  match rest.dropWhile (· ≠ '>') with
  | '>' :: after => if body.isEmpty then none else some (body, after)
  | _ => none

/-- Fuel-driven worker for `TagPreserver.preserve_tags`
(src/src/core/epub_processor.py lines 32-60): `re.sub(r'<[^>]+>', ...)`
replacing the n-th tag (in document order) by the placeholder `⟦TAGn⟧`,
and recording the pairs (n, tag) in insertion order (the Python dict
`tag_map` keyed by the placeholder string `⟦TAGn⟧`; here an entry is keyed
by its number n, which determines that string). -/
def preserveAuxF : Nat → List Char → Nat → List Char × List (Nat × List Char)
  | 0, s, _ => (s, [])
  | _ + 1, [], _ => ([], [])
  | fuel + 1, c :: rest, n =>
    if c = '<' then
      match takeTagBody rest with
      | some (body, after) =>
        let r := preserveAuxF fuel after (n + 1)
        (tok n ++ r.1, (n, '<' :: (body ++ ['>'])) :: r.2)
      | none =>
        let r := preserveAuxF fuel rest n
        (c :: r.1, r.2)
    else
      let r := preserveAuxF fuel rest n
      (c :: r.1, r.2)

/-- `TagPreserver.preserve_tags` (counter starts at 0). -/
def preserve_tags (text : List Char) : List Char × List (Nat × List Char) :=
  preserveAuxF text.length text 0

/-- Insert an entry into a list sorted by key in descending order,
keeping earlier entries first among equal keys (stability of Python
`sorted(..., reverse=True)`). -/
def insDesc (x : Nat × List Char) : List (Nat × List Char) → List (Nat × List Char)
  | [] => [x]
  | y :: ys => if y.1 ≤ x.1 then x :: y :: ys else y :: insDesc x ys

/-- `sorted(tag_map.keys(), key=<placeholder number>, reverse=True)`:
sort the association list by key, descending. -/
def sortDesc (l : List (Nat × List Char)) : List (Nat × List Char) :=
  l.foldr insDesc []

/-- The body of the restoration loop (src/src/core/epub_processor.py
lines 78-80): if the placeholder occurs in the text, replace every
occurrence by the original tag. -/
def restoreStep (s : List Char) (e : Nat × List Char) : List Char :=
  if containsSub s (tok e.1) then replaceAll s (tok e.1) e.2 else s

/-- `TagPreserver.restore_tags` (src/src/core/epub_processor.py lines
62-82): iterate placeholders in descending numeric order; for each, if it
occurs in the text, replace every occurrence by the original tag. -/
def restore_tags (text : List Char) (tagMap : List (Nat × List Char)) : List Char :=
  (sortDesc tagMap).foldl restoreStep text

/-- `preserveAuxF` at its canonical fuel. -/
def preserveAux (s : List Char) (n : Nat) : List Char × List (Nat × List Char) :=
  preserveAuxF s.length s n

/-! ## Text chunker (src/src/core/text_processor.py) -/

/-- `SENTENCE_TERMINATORS` from src/src/config.py line 38, in tuple order
(the duplicate entry is kept, as in the source). -/
def SENTENCE_TERMINATORS : List (List Char) :=
  ['.'.toString.data, '!'.toString.data, '?'.toString.data,
   ['.', '"'], ['?', '"'], ['!', '"'], ['.', '"'],
   ['.', '\''], ['?', '\''], ['!', '\''],
   [':'], ['.', ')']]

/-- Stable insertion into a list sorted by length, descending
(auxiliary for Python `sorted(..., key=len, reverse=True)`). -/
def insLenDesc (x : List Char) : List (List Char) → List (List Char)
  | [] => [x]
  | y :: ys => if y.length ≤ x.length then x :: y :: ys else y :: insLenDesc x ys

/-- Python `sorted(terms, key=len, reverse=True)` (stable). -/
def sortLenDesc (l : List (List Char)) : List (List Char) := l.foldr insLenDesc []

/-- First alternative of the terminator alternation that matches at the
head of `s`, returning its length (the regex pattern joins the
length-sorted terminators with `|`, and an alternation tries the
alternatives in order). -/
def termMatchLen (s : List Char) : Option Nat :=
  (sortLenDesc SENTENCE_TERMINATORS).findSome?
    (fun t => if t.isPrefixOf s then some t.length else none)

/-- Fuel-driven worker for the `re.finditer` segment loop of
src/src/core/text_processor.py lines 71-82: cut the line after every
terminator match, keep segments whose strip is non-empty, and keep the
non-empty remainder. `acc` holds (reversed) the characters of the
current segment. -/
def segScanF : Nat → List Char → List Char → List (List Char)
  | 0, s, acc => if (pyStrip (acc.reverse ++ s)).isEmpty then [] else [acc.reverse ++ s]
  | _ + 1, [], acc =>
    if (pyStrip acc.reverse).isEmpty then [] else [acc.reverse]
  | fuel + 1, c :: rest, acc =>
    match termMatchLen (c :: rest) with
    | some L =>
      let seg := acc.reverse ++ (c :: rest).take L
      let tail := segScanF fuel ((c :: rest).drop L) []
      if (pyStrip seg).isEmpty then tail else seg :: tail
    | none => segScanF fuel rest (c :: acc)

/-- The segments produced for one raw line (lines 71-82). -/
def segmentsOfLine (line : List Char) : List (List Char) :=
  segScanF line.length line []

/-- One step of the refinement loop of lines 66-90: whitespace-only lines
pass through; other lines are replaced by their terminator segments
(with the source's fallback branches kept verbatim). -/
def refineStep (refined : List (List Char)) (line : List Char) : List (List Char) :=
  if (pyStrip line).isEmpty then refined ++ [line]
  else
    let segs := segmentsOfLine line
    if segs.isEmpty && !(pyStrip line).isEmpty then refined ++ [line]
    else if !segs.isEmpty then refined ++ segs
    else if refined.isEmpty || !(pyStrip (refined.getLastD [])).isEmpty || !line.isEmpty then
      refined ++ [line]
    else refined

/-- Characters at which Python `str.splitlines()` breaks. -/
def isLineBreak (c : Char) : Bool :=
  c = '\n' || c = '\r' || c = '\x0b' || c = '\x0c' ||
  c = '\x1c' || c = '\x1d' || c = '\x1e' || c = '\u0085' ||
  c = ' ' || c = ' '

/-- Worker for Python `str.splitlines()` (no trailing empty line). -/
def splitLinesGo : List Char → List Char → List (List Char)
  | [], acc => if acc.isEmpty then [] else [acc.reverse]
  | '\r' :: '\n' :: rest, acc => acc.reverse :: splitLinesGo rest []
  | c :: rest, acc =>
    if isLineBreak c then acc.reverse :: splitLinesGo rest []
    else splitLinesGo rest (c :: acc)

/-- Python `str.splitlines()`. -/
def splitLines (s : List Char) : List (List Char) := splitLinesGo s []

/-- Character class `[a-zA-ZÀ-ÿ0-9]` of the de-hyphenation regex. -/
def dehyLetter (c : Char) : Bool :=
  ('a' ≤ c && c ≤ 'z') || ('A' ≤ c && c ≤ 'Z') || ('0' ≤ c && c ≤ '9') ||
  ('À' ≤ c && c ≤ 'ÿ')

/-- The newline alternation `(\n|\r\n|\r)` (alternatives tried in order). -/
def matchNewline : List Char → Option (List Char)
  | '\n' :: r => some r
  | '\r' :: '\n' :: r => some r
  | '\r' :: r => some r
  | _ => none

/-- Fuel-driven worker for the de-hyphenation
`re.sub(r'([a-zA-ZÀ-ÿ0-9])-(\n|\r\n|\r)\s*([a-zA-ZÀ-ÿ0-9])', r'\1\3', text)`
of src/src/core/text_processor.py line 54. -/
def dehyF : Nat → List Char → List Char
  | 0, s => s
  | _ + 1, [] => []
  | fuel + 1, c :: rest =>
    if dehyLetter c then
      match rest with
      | '-' :: rest2 =>
        match matchNewline rest2 with
        | some rest3 =>
          match rest3.dropWhile pyWs with
          | d :: rest5 =>
            if dehyLetter d then c :: d :: dehyF fuel rest5
            else c :: dehyF fuel rest
          | [] => c :: dehyF fuel rest
        | none => c :: dehyF fuel rest
      | _ => c :: dehyF fuel rest
    else c :: dehyF fuel rest

/-- Whether a line's stripped content ends with one of the sentence
terminators (Python `stripped.endswith(SENTENCE_TERMINATORS)` on the
tuple). -/
def lineEndsTerm (line : List Char) : Bool :=
  let st := pyStrip line
  !st.isEmpty && SENTENCE_TERMINATORS.any (fun t => t.isSuffixOf st)

/-- `get_adjusted_start_index` (src/src/core/text_processor.py lines
8-20): scan indices `intended-1` down to `max(0, intended-lookback)` for a
line ending at a sentence terminator; if found return the next index;
otherwise 0 when `intended ≤ lookback`, else `intended` unchanged. -/
def get_adjusted_start_index (lines : List (List Char)) (intended lookback : Nat) : Nat :=
  if intended = 0 then 0
  else
    match (List.range (min lookback intended)).findSome? (fun k =>
      if lineEndsTerm (lines.getD (intended - 1 - k) []) then some (intended - 1 - k + 1)
      else none) with
    | some v => v
    | none => if intended ≤ lookback then 0 else intended

/-- `get_adjusted_end_index` (src/src/core/text_processor.py lines
23-39): scan indices `intended-1` up to at most `lookforward` lines (and
not past the end) for a terminator line; if found return the next index;
otherwise the end of the list when within `lookforward` of it, else
`intended` unchanged. -/
def get_adjusted_end_index (lines : List (List Char)) (intended lookfwd : Nat) : Nat :=
  if lines.length ≤ intended then lines.length
  else
    match (List.range (min lookfwd (lines.length - (intended - 1)))).findSome? (fun k =>
      if lineEndsTerm (lines.getD (intended - 1 + k) []) then some (intended - 1 + k + 1)
      else none) with
    | some v => v
    | none => if lines.length ≤ intended + lookfwd then lines.length else intended

/-- A chunk produced by the chunker: the `{context_before, main_content,
context_after}` dictionary of src/src/core/text_processor.py. -/
structure Chunk where
  context_before : List Char
  main_content : List Char
  context_after : List Char
deriving DecidableEq, Repr

/-- The main-span selection of one loop iteration
(src/src/core/text_processor.py lines 104-123): propose
`[pos, min(pos+N, len))`, adjust both ends to sentence boundaries, and
apply the source's two fallback branches; `none` models the `break`
statements. -/
def chunkCore (lines : List (List Char)) (N pos : Nat) : Option (Nat × Nat) :=
  let len := lines.length
  let lookBackMain := max 1 (N / 4)
  let lookFwdMain := max 1 (N / 4)
  let iStart := pos
  let iEnd := min (pos + N) len
  let fStart0 := get_adjusted_start_index lines iStart lookBackMain
  let fEnd0 := get_adjusted_end_index lines iEnd lookFwdMain
  let p : Nat × Nat := if fEnd0 < fStart0 then (iStart, iEnd) else (fStart0, fEnd0)
  if p.2 ≤ p.1 then
    if iStart < len then
      if iStart < iEnd then some (iStart, iEnd)
      else some (iStart, len)
    else none
  else some p

/-- The context windows and chunk record built for a selected main span
(src/src/core/text_processor.py lines 134-168). -/
def renderChunk (lines : List (List Char)) (N s e : Nat) : Chunk :=
  let len := lines.length
  let lookBackCtx := max 1 (N / 8)
  let lookFwdCtx := max 1 (N / 8)
  let ctxTgt := N / 4
  let cbEnd := s
  let cbStart := cbEnd - ctxTgt
  let fcbStart := get_adjusted_start_index lines cbStart lookBackCtx
  let fcbEnd := min cbEnd s
  let ctxBefore := if fcbStart < fcbEnd then (lines.drop fcbStart).take (fcbEnd - fcbStart) else []
  let caStart := e
  let caEnd := min len (caStart + ctxTgt)
  let fcaEnd := get_adjusted_end_index lines caEnd lookFwdCtx
  let ctxAfter := if caStart < fcaEnd then (lines.drop caStart).take (fcaEnd - caStart) else []
  ⟨joinWith ['\n'] ctxBefore,
   joinWith ['\n'] ((lines.drop s).take (e - s)),
   joinWith ['\n'] ctxAfter⟩

/-- One full iteration of the chunker's `while` loop
(src/src/core/text_processor.py lines 103-172): returns `none` for
`break`, otherwise the optionally emitted chunk and the new cursor. -/
def chunkStep (lines : List (List Char)) (N pos : Nat) : Option (Option Chunk × Nat) :=
  let len := lines.length
  match chunkCore lines N pos with
  | none => none
  | some (s, e) =>
    let mainLines := (lines.drop s).take (e - s)
    if mainLines.isEmpty then
      if s < len then some (none, s + 1) else none
    else if (pyStrip mainLines.flatten).isEmpty then
      some (none, if e ≤ pos then pos + 1 else e)
    else
      some (some (renderChunk lines N s e), if e ≤ pos then pos + 1 else e)

/-- Fuel-driven `while` loop of the chunker (fuel `lines.length` always
suffices because the cursor strictly advances; see the termination
theorem). -/
def chunkLoopF (lines : List (List Char)) (N : Nat) : Nat → Nat → List Chunk
  | 0, _ => []
  | fuel + 1, pos =>
    if lines.length ≤ pos then []
    else
      match chunkStep lines N pos with
      | none => []
      | some (oc, pos') =>
        let rest := chunkLoopF lines N fuel pos'
        match oc with
        | some c => c :: rest
        | none => rest

/-- Instrumented variant of the loop recording, for every iteration, the
selected main span and whether a chunk was emitted for it. -/
def chunkTraceF (lines : List (List Char)) (N : Nat) : Nat → Nat → List (Nat × Nat × Bool)
  | 0, _ => []
  | fuel + 1, pos =>
    if lines.length ≤ pos then []
    else
      match chunkStep lines N pos with
      | none => []
      | some (oc, pos') =>
        match chunkCore lines N pos with
        | none => []
        | some (s, e) => (s, e, oc.isSome) :: chunkTraceF lines N fuel pos'

/-- The refined logical-line list of src/src/core/text_processor.py lines
53-92: de-hyphenate, split into raw lines, then refine each line at
sentence terminators. -/
def refineLines (text : List Char) : List (List Char) :=
  (splitLines (dehyF text.length text)).foldl refineStep []

/-- `split_text_into_chunks_with_context` (src/src/core/text_processor.py
lines 42-174). -/
def split_text_into_chunks_with_context (text : List Char) (N : Nat) : List Chunk :=
  let allLines := refineLines text
  if allLines.isEmpty then [] else chunkLoopF allLines N allLines.length 0

/-! ## SRT processor (src/src/core/srt_processor.py) -/

/-- A parsed SRT subtitle: the dictionary built by `SRTProcessor.parse_srt`
(src/src/core/srt_processor.py lines 47-53). -/
structure Subtitle where
  number : List Char
  start_time : List Char
  end_time : List Char
  text : List Char
  original_text : List Char
deriving DecidableEq, Repr

/-- Exact shape `\d{2}:\d{2}:\d{2},\d{3}` of a 12-character timecode. -/
def tcCheck (t : List Char) : Bool :=
  match t with
  | [a, b, c1, d, e, c2, f, g, c3, h, i, j] =>
    pyIsDigitChar a && pyIsDigitChar b && c1 = ':' &&
    pyIsDigitChar d && pyIsDigitChar e && c2 = ':' &&
    pyIsDigitChar f && pyIsDigitChar g && c3 = ',' &&
    pyIsDigitChar h && pyIsDigitChar i && pyIsDigitChar j
  | _ => false

/-- `re.match(r'(\d{2}:\d{2}:\d{2},\d{3})\s*-->\s*(\d{2}:\d{2}:\d{2},\d{3})', line)`:
a prefix match returning the two captured timecodes (trailing characters
after the second timecode are ignored, as `re.match` anchors only the
start). -/
def matchTimecode (l : List Char) : Option (List Char × List Char) :=
  let t1 := l.take 12
  if tcCheck t1 then
    match (l.drop 12).dropWhile pyWs with
    | '-' :: '-' :: '>' :: r3 =>
      let t2 := (r3.dropWhile pyWs).take 12
      if tcCheck t2 then some (t1, t2) else none
    | _ => none
  else none

/-- The per-block body of `SRTProcessor.parse_srt`
(src/src/core/srt_processor.py lines 26-54): strip the block, skip when
empty, fewer than three lines, non-digit sequence number, or unmatched
timecode line; otherwise build the subtitle dictionary. -/
def parseBlock (block : List Char) : Option Subtitle :=
  let b := pyStrip block
  if b.isEmpty then none
  else
    let lines := splitOnSep b ['\n']
    if lines.length < 3 then none
    else
      match lines with
      | l0 :: l1 :: rest =>
        if !pyIsDigit l0 then none
        else
          match matchTimecode l1 with
          | none => none
          | some (st, en) =>
            let text := joinWith ['\n'] rest
            some ⟨l0, st, en, text, text⟩
      | _ => none

/-- `SRTProcessor.parse_srt` (src/src/core/srt_processor.py lines 17-57):
normalise line endings, force a trailing newline, split on blank lines
and parse each block, skipping invalid ones. -/
def parse_srt (content : List Char) : List Subtitle :=
  let c1 := replaceAll content ['\r', '\n'] ['\n']
  let c2 := replaceAll c1 ['\r'] ['\n']
  let c3 := if c2.getLast? = some '\n' then c2 else c2 ++ ['\n']
  (splitOnSep c3 ['\n', '\n']).filterMap parseBlock

/-- `SRTProcessor.reconstruct_srt` (src/src/core/srt_processor.py lines
76-86): one `number\nstart --> end\ntext\n` block per subtitle, joined by
`'\n'`. -/
def reconstruct_srt (subs : List Subtitle) : List Char :=
  joinWith ['\n'] (subs.map (fun s =>
    s.number ++ ['\n'] ++ s.start_time ++ " --> ".data ++ s.end_time ++ ['\n'] ++
    s.text ++ ['\n']))

/-- The block text `number\nstart --> end\ntext` that `reconstruct_srt`
emits for one subtitle, without the block-final newline. -/
def srtBlock (s : Subtitle) : List Char :=
  s.number ++ ['\n'] ++ s.start_time ++ " --> ".data ++ s.end_time ++ ['\n'] ++ s.text

/-- `SRTProcessor.update_translated_subtitles` (src/src/core/srt_processor.py
lines 68-74): for each `(idx, translation)` in the mapping (insertion
order), overwrite the `text` field of the subtitle at `idx` when the index
is in range. -/
def update_translated_subtitles (subs : List Subtitle)
    (translations : List (Nat × List Char)) : List Subtitle :=
  translations.foldl
    (fun acc e =>
      if h : e.1 < acc.length then acc.set e.1 { acc.get ⟨e.1, h⟩ with text := e.2 }
      else acc)
    subs

/-- Accumulator of `SRTProcessor.group_subtitles_for_translation`:
finished blocks, the current block, and `current_char_count`. -/
structure GroupState where
  blocks : List (List Subtitle)
  current : List Subtitle
  charCount : Nat
deriving Repr

/-- One iteration of the grouping loop (src/src/core/srt_processor.py
lines 140-159): whitespace-only subtitles attach to a non-empty current
block (and are dropped otherwise); a non-empty subtitle first flushes the
current block when the line or character budget would be exceeded, then
is appended, its stripped length charged to the character count. -/
def groupStep (lpb mcpb : Nat) (st : GroupState) (sub : Subtitle) : GroupState :=
  let text := pyStrip sub.text
  if text.isEmpty then
    if !st.current.isEmpty then { st with current := st.current ++ [sub] } else st
  else
    let tl := text.length
    let wouldExceedLines := lpb ≤ st.current.length
    let wouldExceedChars := mcpb < st.charCount + tl
    if !st.current.isEmpty && (wouldExceedLines || wouldExceedChars) then
      { blocks := st.blocks ++ [st.current]
        current := [sub]
        charCount := tl }
    else
      { st with current := st.current ++ [sub], charCount := st.charCount + tl }

/-- `SRTProcessor.group_subtitles_for_translation`
(src/src/core/srt_processor.py lines 130-165). -/
def group_subtitles_for_translation (subs : List Subtitle)
    (lpb : Nat := 5) (mcpb : Nat := 500) : List (List Subtitle) :=
  if subs.isEmpty then []
  else
    let fin := subs.foldl (groupStep lpb mcpb) ⟨[], [], 0⟩
    if fin.current.isEmpty then fin.blocks else fin.blocks ++ [fin.current]

/-! ## LLM client and post-processor
(src/src/core/llm_client.py, src/src/core/post_processor.py) -/

/-- `TRANSLATE_TAG_IN` (src/src/config.py line 32). -/
def TRANSLATE_TAG_IN : List Char := "<TRANSLATED>".data

/-- `TRANSLATE_TAG_OUT` (src/src/config.py line 33). -/
def TRANSLATE_TAG_OUT : List Char := "</TRANSLATED>".data

/-- `LLMClient.extract_translation` (src/src/core/llm_client.py lines
87-103): `re.search(IN + '(.*?)' + OUT, response, DOTALL)` — the overall
match starts at the first occurrence of the opening marker, the lazy
group ends at the earliest closing marker after it — then
`match.group(1).strip()`. -/
def extract_translation (response : List Char) : Option (List Char) :=
  if response.isEmpty then none
  else
    match findSub response TRANSLATE_TAG_IN with
    | none => none
    | some i =>
      let after := response.drop (i + TRANSLATE_TAG_IN.length)
      match findSub after TRANSLATE_TAG_OUT with
      | none => none
      | some j => some (pyStrip (after.take j))

/-- The six-character unit of the `(&nbsp;)+` rule. -/
def nbspUnit : List Char := "&nbsp;".data

/-- `re.sub(r'(&nbsp;)+', lambda m: ' ' * (len(m.group()) // 6), text)`
(src/src/core/post_processor.py line 76): every run of k units becomes k
non-breaking spaces; replacing unit by unit yields the same string. -/
def nbspRunF : Nat → List Char → List Char
  | 0, s => s
  | _ + 1, [] => []
  | fuel + 1, c :: rest =>
    if nbspUnit.isPrefixOf (c :: rest) then
      ' ' :: nbspRunF fuel ((c :: rest).drop 6)
    else c :: nbspRunF fuel rest

/-- `HTMLEntityCleanupRule.apply` (src/src/core/post_processor.py lines
74-94): the `&nbsp;` run rule followed by the ordered entity replacement
table. -/
def htmlEntityCleanup (s : List Char) : List Char :=
  let s := nbspRunF s.length s
  let s := replaceAll s "&amp;".data ['&']
  let s := replaceAll s "&lt;".data ['<']
  let s := replaceAll s "&gt;".data ['>']
  let s := replaceAll s "&quot;".data ['"']
  let s := replaceAll s "&#39;".data ['\'']
  let s := replaceAll s "&apos;".data ['\'']
  let s := replaceAll s "&mdash;".data ['—']
  let s := replaceAll s "&ndash;".data ['–']
  replaceAll s "&hellip;".data ['…']

/-- `re.sub(r' +', ' ', text)`: collapse each run of spaces to one. -/
def collapseSpacesF : Nat → List Char → List Char
  | 0, s => s
  | _ + 1, [] => []
  | fuel + 1, c :: rest =>
    if c = ' ' then ' ' :: collapseSpacesF fuel (rest.dropWhile (· = ' '))
    else c :: collapseSpacesF fuel rest

/-- The punctuation class of `r' +([.,!?;:])'`. -/
def punctClass (c : Char) : Bool :=
  c = '.' || c = ',' || c = '!' || c = '?' || c = ';' || c = ':'

/-- `re.sub(r' +([.,!?;:])', r'\1', text)`: delete space runs immediately
before punctuation. -/
def noSpaceBeforePunctF : Nat → List Char → List Char
  | 0, s => s
  | _ + 1, [] => []
  | fuel + 1, c :: rest =>
    if c = ' ' then
      let run := (c :: rest).takeWhile (· = ' ')
      match (c :: rest).dropWhile (· = ' ') with
      | p :: rest2 =>
        if punctClass p then p :: noSpaceBeforePunctF fuel rest2
        else run ++ noSpaceBeforePunctF fuel ((c :: rest).dropWhile (· = ' '))
      | [] => run
    else c :: noSpaceBeforePunctF fuel rest

/-- Length of the leading whitespace run. -/
def wsRunLen (r : List Char) : Nat := (r.takeWhile pyWs).length

/-- Largest `b ≤ b0` with `r.get? b = '\n'` (the greedy-then-backtracking
extent of a `\s*` followed by `\n`). -/
def pickNl (r : List Char) : Nat → Option Nat
  | 0 => if r.get? 0 = some '\n' then some 0 else none
  | b + 1 => if r.get? (b + 1) = some '\n' then some (b + 1) else pickNl r b

/-- Backtracking match of `\s*\n\s*\n` against `r` (the remainder after
the first `\n` of the pattern `\n\s*\n\s*\n`), trying the first `\s*`
extent greedily; returns the number of characters consumed from `r`. -/
def tryTriple (r : List Char) : Nat → Option Nat
  | 0 =>
    if r.get? 0 = some '\n' then
      let r2 := r.drop 1
      match pickNl r2 (wsRunLen r2) with
      | some b => some (1 + b + 1)
      | none => none
    else none
  | a + 1 =>
    if r.get? (a + 1) = some '\n' then
      let r2 := r.drop (a + 2)
      match pickNl r2 (wsRunLen r2) with
      | some b => some (a + 2 + b + 1)
      | none => tryTriple r a
    else tryTriple r a

/-- `re.sub(r'\n\s*\n\s*\n', '\n\n', text)` (src/src/core/post_processor.py
line 63), with the regex engine's greedy/backtracking extents. -/
def tripleNlF : Nat → List Char → List Char
  | 0, s => s
  | _ + 1, [] => []
  | fuel + 1, c :: r =>
    if c = '\n' then
      match tryTriple r (wsRunLen r) with
      | some k => '\n' :: '\n' :: tripleNlF fuel (r.drop k)
      | none => '\n' :: tripleNlF fuel r
    else c :: tripleNlF fuel r

/-- `RemoveExtraWhitespaceRule.apply` (src/src/core/post_processor.py
lines 52-65). -/
def removeExtraWhitespace (s : List Char) : List Char :=
  let s := collapseSpacesF s.length s
  let s := noSpaceBeforePunctF s.length s
  let s := tripleNlF s.length s
  pyStrip s

/-- `clean_translated_text` via `PostProcessor.process` with the default
rule pipeline (src/src/core/post_processor.py lines 107-168): empty text
passes through, otherwise entity cleanup then whitespace cleanup. -/
def clean_translated_text (s : List Char) : List Char :=
  if s.isEmpty then s else removeExtraWhitespace (htmlEntityCleanup s)

/-! ## Translation engine (src/src/core/translator.py) -/

/-- `generate_translation_request` (src/src/core/translator.py lines
20-101) as a function of the main content and of the outcome of
`LLMClient.make_request` (`none` = request failed after retries). Short
inputs skip the LLM; an empty raw response is treated as a failure; a
non-empty extraction is cleaned and returned; otherwise the raw response
is discarded when it contains the input, else cleaned and used. -/
def generate_translation_request (main : List Char) (rawResponse : Option (List Char)) :
    Option (List Char) :=
  if (pyStrip main).length ≤ 1 then some main
  else
    match rawResponse with
    | none => none
    | some raw =>
      if raw.isEmpty then none
      else
        match extract_translation raw with
        | some t =>
          if !t.isEmpty then some (clean_translated_text t)
          else if containsSub raw main then none
          else some (clean_translated_text (pyStrip raw))
        | none =>
          if containsSub raw main then none
          else some (clean_translated_text (pyStrip raw))

/-- The error placeholder emitted for a failed segment
(src/src/core/translator.py line 332), `n` being the 1-based index. -/
def errStr (n : Nat) (main : List Char) : List Char :=
  "[TRANSLATION_ERROR SEGMENT ".data ++ natDigits n ++ "]\n".data ++ main ++
  "\n[/TRANSLATION_ERROR SEGMENT ".data ++ natDigits n ++ "]".data

/-- Loop state of `translate_chunks`: enumeration index,
`full_translation_parts`, `completed_chunks_count`, `failed_chunks_count`
and `last_successful_llm_context`. -/
structure TransState where
  idx : Nat
  parts : List (List Char)
  completed : Nat
  failed : Nat
  ctx : List Char
deriving DecidableEq, Repr

/-- The rolling-context update of src/src/core/translator.py lines
321-325: the last 25 words of the translated text, or the entire text
when it has 25 or fewer words. -/
def ctxOf (t : List Char) : List Char :=
  let ws := pySplitWords t
  if 25 < ws.length then joinWith [' '] (ws.drop (ws.length - 25)) else t

/-- One iteration of the `translate_chunks` loop
(src/src/core/translator.py lines 265-338) with post-processing disabled
and no interruption: `oracle i` is the outcome of
`generate_translation_request` for the chunk at enumeration index `i`
(`none` = failure). Whitespace-only chunks pass through; successes are
cleaned, stored and update the rolling context; failures store the error
placeholder, count one failure and reset the context. -/
def translateStep (oracle : Nat → Option (List Char)) (st : TransState) (ch : Chunk) :
    TransState :=
  if (pyStrip ch.main_content).isEmpty then
    { st with
      idx := st.idx + 1
      parts := st.parts ++ [ch.main_content]
      completed := st.completed + 1 }
  else
    match oracle st.idx with
    | some t =>
      let cleaned := clean_translated_text t
      { idx := st.idx + 1
        parts := st.parts ++ [cleaned]
        completed := st.completed + 1
        failed := st.failed
        ctx := ctxOf cleaned }
    | none =>
      { idx := st.idx + 1
        parts := st.parts ++ [errStr (st.idx + 1) ch.main_content]
        completed := st.completed
        failed := st.failed + 1
        ctx := [] }

/-- `translate_chunks` (src/src/core/translator.py lines 228-345) as a
fold of `translateStep` from the initial state. -/
def translate_chunks (chunks : List Chunk) (oracle : Nat → Option (List Char)) : TransState :=
  chunks.foldl (translateStep oracle) ⟨0, [], 0, 0, []⟩

/-! ## EPUB phase-2 job finalisation (src/src/core/epub_processor.py) -/

/-- The per-job finalisation of EPUB phase 2
(src/src/core/epub_processor.py lines 592-606): join the translated
sub-chunk outputs, restore tags when the job carries a non-empty tag map,
and flag the job as failed exactly when some part contains the error
marker. The joined (restored) text is stored unconditionally; no
placeholder validation is performed. -/
def epub_job_finalize (parts : List (List Char)) (tagMap : List (Nat × List Char)) :
    List Char × Bool :=
  let translated := joinWith ['\n'] parts
  let translated := if !tagMap.isEmpty then restore_tags translated tagMap else translated
  (translated, parts.any (fun p => containsSub p "[TRANSLATION_ERROR".data))

/-! ## Job progress under interruption
(src/src/core/epub_processor.py lines 571-638 and
src/src/api/handlers.py lines 111-115, 236-247) -/

/-- The mutable per-job record observed by the progress callback: the
stored `progress` value and a logical clock counting reads of the
interrupt flag. The external interrupt flag is a function of that clock.
Progress is modelled over `ℚ` (the Python float arithmetic here is exact
on the values involved and irrelevant to the ordering claims). -/
structure EpubJobRecord where
  progress : ℚ
  clock : Nat
deriving DecidableEq, Repr

/-- `_update_translation_progress_callback` (src/src/api/handlers.py lines
111-115): the new percentage is stored only when the interrupt flag is
not set at the moment of the call. -/
def progressCallback (flag : Nat → Bool) (p : ℚ) (s : EpubJobRecord) : EpubJobRecord :=
  { progress := if flag s.clock then s.progress else p, clock := s.clock + 1 }

/-- The phase-2 job loop of `translate_epub_file`
(src/src/core/epub_processor.py lines 572-635): at each job `j < n`, first
poll the interrupt flag (break when set), then emit progress
`10 + ((j+1)/n)*90` — before the job is translated. The fuel argument is
`n - j`. Translation itself does not touch the progress record. -/
def epubPhase2Loop (flag : Nat → Bool) (n : Nat) : Nat → Nat → EpubJobRecord → EpubJobRecord
  | _, 0, s => s
  | j, fuel + 1, s =>
    if flag s.clock then { s with clock := s.clock + 1 }
    else
      epubPhase2Loop flag n (j + 1) fuel
        (progressCallback flag (10 + (((j : ℚ) + 1) / (n : ℚ)) * 90) { s with clock := s.clock + 1 })

/-- Phase 2 of `translate_epub_file`: the job loop followed by the
unconditional `progress_callback(100)` of lines 637-638. -/
def epubPhase2 (flag : Nat → Bool) (n : Nat) (s : EpubJobRecord) : EpubJobRecord :=
  progressCallback flag 100 (epubPhase2Loop flag n 0 n s)

/-- The finalisation of `perform_actual_translation` (src/src/api/handlers.py
lines 236-247): if the interrupt flag is set the job ends `interrupted`
(`true`) with its progress untouched; otherwise it ends `completed`
(`false`) and the progress callback is invoked once more with 100. -/
def finalizeJob (flag : Nat → Bool) (s : EpubJobRecord) : Bool × EpubJobRecord :=
  if flag s.clock then (true, { s with clock := s.clock + 1 })
  else (false, progressCallback flag 100 { s with clock := s.clock + 1 })

/-- A full EPUB job run: phase 2 over `n` jobs from a fresh record, then
finalisation. The first component tells whether the job ended
`interrupted`. -/
def epubRun (flag : Nat → Bool) (n : Nat) : Bool × EpubJobRecord :=
  finalizeJob flag (epubPhase2 flag n ⟨0, 0⟩)

/-! ## Definitions taken from the claims' wording (for comparison) -/

/-- Equality up to normalised line endings (CRLF/CR mapped to LF) and a
single trailing newline — the equivalence named by the SRT round-trip
claim. -/
def normLE (s : List Char) : List Char :=
  let c := replaceAll (replaceAll s ['\r', '\n'] ['\n']) ['\r'] ['\n']
  (c.reverse.dropWhile (· = '\n')).reverse ++ ['\n']

/-- The output list that the rolling-context claim prescribes for
`translate_chunks`, position by position (modelled from the claim's
words): pass-through for whitespace mains, the cleaned translation on
success, the error placeholder with the 1-based index on failure. -/
def specParts (oracle : Nat → Option (List Char)) : Nat → List Chunk → List (List Char)
  | _, [] => []
  | i, ch :: rest =>
    if (pyStrip ch.main_content).isEmpty then ch.main_content :: specParts oracle (i + 1) rest
    else
      match oracle i with
      | some t => clean_translated_text t :: specParts oracle (i + 1) rest
      | none => errStr (i + 1) ch.main_content :: specParts oracle (i + 1) rest

/-- The failed-chunk count the claim prescribes: one per failed
non-whitespace chunk. -/
def specFailed (oracle : Nat → Option (List Char)) : Nat → List Chunk → Nat
  | _, [] => 0
  | i, ch :: rest =>
    if (pyStrip ch.main_content).isEmpty then specFailed oracle (i + 1) rest
    else
      match oracle i with
      | some _ => specFailed oracle (i + 1) rest
      | none => specFailed oracle (i + 1) rest + 1

/-- The rolling context the claim prescribes after processing a chunk
list: last 25 words of the last successful translation, reset to empty by
a failure, untouched by whitespace chunks. -/
def specCtx (oracle : Nat → Option (List Char)) : Nat → List Chunk → List Char → List Char
  | _, [], ctx => ctx
  | i, ch :: rest, ctx =>
    if (pyStrip ch.main_content).isEmpty then specCtx oracle (i + 1) rest ctx
    else
      match oracle i with
      | some t => specCtx oracle (i + 1) rest (ctxOf (clean_translated_text t))
      | none => specCtx oracle (i + 1) rest []

/-- The last translation assigned to index `i` by the mapping (later
entries of the insertion-ordered dict overwrite earlier ones). Used to
state the frame property of `update_translated_subtitles`. -/
def lastVal (translations : List (Nat × List Char)) (i : Nat) : Option (List Char) :=
  translations.foldl (fun acc e => if e.1 = i then some e.2 else acc) none

/-- A subtitle whose text strips to nothing (attached without charge by
the SRT grouping loop). -/
def wsOnlySub (s : Subtitle) : Bool := (pyStrip s.text).isEmpty

/-- Number of non-empty (after strip) subtitles in a block. -/
def blockNonEmptyCount (b : List Subtitle) : Nat :=
  (b.filter (fun s => !(pyStrip s.text).isEmpty)).length

/-- Total stripped-character count of a block (whitespace-only subtitles
contribute 0, exactly as in `current_char_count`). -/
def blockCharSum (b : List Subtitle) : Nat :=
  (b.map (fun s => (pyStrip s.text).length)).sum

/-- No occurrence of `pat` anywhere in `s` (as a check on every suffix). -/
def NoOcc (s pat : List Char) : Prop :=
  ∀ t, t <:+ s → pat.isPrefixOf t = false

/-- No occurrence of `pat` starts strictly inside `pre` when scanning
`pre ++ rest`. -/
def NoHit (pre pat rest : List Char) : Prop :=
  ∀ a1 a2, pre = a1 ++ a2 → a2 ≠ [] → pat.isPrefixOf (a2 ++ rest) = false

/-- The shape invariants of every subtitle produced by `parse_srt`:
digit-only sequence number, exactly formatted timecodes, and a non-empty
text that contains no blank line, no carriage return, does not start with
a newline and does not end in whitespace; `original_text` mirrors
`text`. -/
def SubtitleWF (sub : Subtitle) : Prop :=
  pyIsDigit sub.number = true ∧
  tcCheck sub.start_time = true ∧
  tcCheck sub.end_time = true ∧
  sub.text ≠ [] ∧
  NoOcc sub.text ['\n', '\n'] ∧
  (∀ c, sub.text.head? = some c → c ≠ '\n') ∧
  (∀ c, sub.text.getLast? = some c → pyWs c = false) ∧
  '\r' ∉ sub.text ∧
  sub.original_text = sub.text

/-! ## Lemmas: `replaceAll`, `containsSub`, occurrences -/

theorem listLenPos {α : Type} {pat : List α} (h : pat ≠ []) : 1 ≤ pat.length := by
  cases pat with
  | nil => exact absurd rfl h
  | cons a l => simp

theorem replF_fuelIrrel : ∀ (f1 f2 : Nat) (s pat rep : List Char),
    s.length ≤ f1 → s.length ≤ f2 → replF f1 s pat rep = replF f2 s pat rep := by
  intro f1
  induction f1 with
  | zero =>
    intro f2 s pat rep h1 _
    have : s = [] := List.length_eq_zero.mp (Nat.le_zero.mp h1)
    subst this
    cases f2 <;> simp [replF]
  | succ f ih =>
    intro f2 s pat rep h1 h2
    match s with
    | [] => cases f2 <;> simp [replF]
    | c :: rest =>
      have hr : rest.length ≤ f := by
        simp only [List.length_cons] at h1; omega
      match f2, h2 with
      | g + 1, h2 =>
        have hrg : rest.length ≤ g := by
          simp only [List.length_cons] at h2; omega
        simp only [replF]
        by_cases hc : (!pat.isEmpty && pat.isPrefixOf (c :: rest)) = true
        · simp only [hc, if_true]
          have hpat1 : 1 ≤ pat.length := by
            cases pat with
            | nil => simp at hc
            | cons a l => simp
          have hlen : ((c :: rest).drop pat.length).length ≤ f := by
            simp only [List.length_drop, List.length_cons]; omega
          have hleng : ((c :: rest).drop pat.length).length ≤ g := by
            simp only [List.length_drop, List.length_cons]; omega
          rw [ih g ((c :: rest).drop pat.length) pat rep hlen hleng]
        · simp only [hc, if_false]
          rw [ih g rest pat rep hr hrg]
          simp only [Bool.false_eq_true, if_false]

theorem replaceAll_cons_hit {pat : List Char} (c : Char) (rest rep : List Char)
    (hpat : pat ≠ []) (hpre : pat.isPrefixOf (c :: rest) = true) :
    replaceAll (c :: rest) pat rep = rep ++ replaceAll ((c :: rest).drop pat.length) pat rep := by
  have hcond : (!pat.isEmpty && pat.isPrefixOf (c :: rest)) = true := by
    simp [hpre, hpat]
  have hpat1 : 1 ≤ pat.length := listLenPos hpat
  simp only [replaceAll, List.length_cons, replF, hcond, if_true]
  congr 1
  apply replF_fuelIrrel
  · simp only [List.length_drop, List.length_cons]; omega
  · exact le_refl _

theorem replaceAll_cons_miss {pat : List Char} (c : Char) (rest rep : List Char)
    (hpre : pat.isPrefixOf (c :: rest) = false) :
    replaceAll (c :: rest) pat rep = c :: replaceAll rest pat rep := by
  have hcond : (!pat.isEmpty && pat.isPrefixOf (c :: rest)) = false := by
    simp [hpre]
  simp only [replaceAll, List.length_cons, replF, hcond, Bool.false_eq_true, if_false]

theorem replaceAll_id_of_noOcc {s pat rep : List Char} (h : NoOcc s pat) :
    replaceAll s pat rep = s := by
  induction s with
  | nil => rfl
  | cons c rest ih =>
    rw [replaceAll_cons_miss c rest rep (h _ (List.suffix_refl _))]
    rw [ih (fun t ht => h t (ht.trans (List.suffix_cons c rest)))]

theorem containsSub_eq_false_of_noOcc {s pat : List Char} (h : NoOcc s pat) :
    containsSub s pat = false := by
  induction s with
  | nil =>
    have h0 := h [] (List.suffix_refl [])
    simp only [containsSub]
    cases pat with
    | nil => simp [List.isPrefixOf] at h0
    | cons a l => simp
  | cons c rest ih =>
    simp only [containsSub, Bool.or_eq_false_iff]
    exact ⟨h _ (List.suffix_refl _), ih (fun t ht => h t (ht.trans (List.suffix_cons c rest)))⟩

theorem containsSub_of_isPrefixOf {s pat : List Char} (h : pat.isPrefixOf s = true) :
    containsSub s pat = true := by
  cases s with
  | nil =>
    have : pat = [] := by
      cases pat with
      | nil => rfl
      | cons a l => simp [List.isPrefixOf] at h
    subst this; rfl
  | cons c rest => simp [containsSub, h]

theorem noOcc_of_head_not_mem {s : List Char} {h0 : Char} {pat' : List Char}
    (hmem : h0 ∉ s) : NoOcc s (h0 :: pat') := by
  intro t ht
  cases t with
  | nil => simp [List.isPrefixOf]
  | cons c rest =>
    have hne : (h0 == c) = false := by
      by_cases hc : h0 = c
      · subst hc
        exact absurd (ht.subset (List.mem_cons_self _ _)) hmem
      · simp [hc]
    simp [List.isPrefixOf, hne]

theorem replaceAll_append_of_noHit {pre pat rest rep : List Char}
    (h : NoHit pre pat rest) :
    replaceAll (pre ++ rest) pat rep = pre ++ replaceAll rest pat rep := by
  induction pre with
  | nil => rfl
  | cons c pre' ih =>
    have hmiss : pat.isPrefixOf (c :: (pre' ++ rest)) = false := by
      have := h [] (c :: pre') rfl (by simp)
      simpa using this
    rw [List.cons_append, replaceAll_cons_miss c (pre' ++ rest) rep hmiss]
    rw [ih (fun a1 a2 heq hne => h (c :: a1) a2 (by simp [heq]) hne)]
    simp

theorem containsSub_append_of_noHit {pre pat rest : List Char}
    (h : NoHit pre pat rest) :
    containsSub (pre ++ rest) pat = containsSub rest pat := by
  induction pre with
  | nil => rfl
  | cons c pre' ih =>
    have hmiss : pat.isPrefixOf (c :: (pre' ++ rest)) = false := by
      have := h [] (c :: pre') rfl (by simp)
      simpa using this
    simp only [List.cons_append, containsSub, hmiss, Bool.false_or]
    exact ih (fun a1 a2 heq hne => h (c :: a1) a2 (by simp [heq]) hne)

theorem noHit_of_head_not_mem {pre rest : List Char} {h0 : Char} {pat' : List Char}
    (hmem : h0 ∉ pre) : NoHit pre (h0 :: pat') rest := by
  intro a1 a2 heq hne
  cases a2 with
  | nil => exact absurd rfl hne
  | cons c a2' =>
    have hcmem : c ∈ pre := by
      rw [heq]
      exact List.mem_append.mpr (Or.inr (List.mem_cons_self _ _))
    have hne2 : (h0 == c) = false := by
      by_cases hc : h0 = c
      · subst hc; exact absurd hcmem hmem
      · simp [hc]
    simp [List.isPrefixOf, hne2]

/-! ## Lemmas: decimal digits and placeholder tokens -/

theorem digitChar_isDigit {n : Nat} (h : n < 10) : pyIsDigitChar (digitChar n) = true := by
  interval_cases n <;> decide

theorem digitChar_toNat {n : Nat} (h : n < 10) : (digitChar n).toNat = 48 + n := by
  interval_cases n <;> decide

theorem natDigitsF_fuelIrrel : ∀ (f1 f2 n : Nat), n < f1 → n < f2 →
    natDigitsF f1 n = natDigitsF f2 n := by
  intro f1
  induction f1 with
  | zero => intro f2 n h1; omega
  | succ f ih =>
    intro f2 n h1 h2
    match f2, h2 with
    | g + 1, h2 =>
      simp only [natDigitsF]
      by_cases hn : n < 10
      · simp [hn]
      · simp only [hn, if_false]
        have hdiv : n / 10 < n := Nat.div_lt_self (by omega) (by omega)
        rw [ih g (n / 10) (by omega) (by omega)]

theorem natDigitsF_succ (fuel n : Nat) : natDigitsF (fuel + 1) n =
    if n < 10 then [digitChar n] else natDigitsF fuel (n / 10) ++ [digitChar (n % 10)] := rfl

theorem natDigits_lt10 {n : Nat} (h : n < 10) : natDigits n = [digitChar n] := by
  rw [natDigits, natDigitsF_succ, if_pos h]

theorem natDigits_ge10 {n : Nat} (h : 10 ≤ n) :
    natDigits n = natDigits (n / 10) ++ [digitChar (n % 10)] := by
  have hdiv : n / 10 < n := Nat.div_lt_self (by omega) (by omega)
  rw [natDigits, natDigitsF_succ, if_neg (Nat.not_lt.mpr h),
      natDigitsF_fuelIrrel n (n / 10 + 1) (n / 10) (by omega) (by omega)]
  rfl

theorem natDigits_all_digit : ∀ n, ∀ c ∈ natDigits n, pyIsDigitChar c = true := by
  intro n
  induction n using Nat.strong_induction_on with
  | _ n ih =>
    by_cases hn : n < 10
    · rw [natDigits_lt10 hn]
      intro c hc
      rw [List.mem_singleton] at hc
      subst hc
      exact digitChar_isDigit hn
    · rw [natDigits_ge10 (by omega)]
      intro c hc
      rcases List.mem_append.mp hc with h | h
      · exact ih (n / 10) (Nat.div_lt_self (by omega) (by omega)) c h
      · rw [List.mem_singleton] at h
        subst h
        exact digitChar_isDigit (Nat.mod_lt _ (by omega))

theorem natDigits_ne_nil (n : Nat) : natDigits n ≠ [] := by
  by_cases hn : n < 10
  · rw [natDigits_lt10 hn]; simp
  · rw [natDigits_ge10 (by omega)]; simp

theorem digitsToNat_append_singleton (a : List Char) (c : Char) :
    digitsToNat (a ++ [c]) = digitsToNat a * 10 + (c.toNat - 48) := by
  simp [digitsToNat, List.foldl_append]

theorem digitsToNat_natDigits : ∀ n, digitsToNat (natDigits n) = n := by
  intro n
  induction n using Nat.strong_induction_on with
  | _ n ih =>
    by_cases hn : n < 10
    · rw [natDigits_lt10 hn]
      have := digitChar_toNat hn
      simp [digitsToNat, this]
    · rw [natDigits_ge10 (by omega), digitsToNat_append_singleton,
          ih (n / 10) (Nat.div_lt_self (by omega) (by omega)),
          digitChar_toNat (Nat.mod_lt _ (by omega))]
      omega

theorem natDigits_inj {n m : Nat} (h : natDigits n = natDigits m) : n = m := by
  have := congrArg digitsToNat h
  rwa [digitsToNat_natDigits, digitsToNat_natDigits] at this

theorem digit_ne {c x : Char} (hd : pyIsDigitChar c = true)
    (hx : pyIsDigitChar x = false) : c ≠ x := by
  intro h
  subst h
  rw [hd] at hx
  exact absurd hx (by decide)

theorem digit_not_ws {c : Char} (hd : pyIsDigitChar c = true) : pyWs c = false := by
  rw [← Bool.not_eq_true]
  intro hws
  simp only [pyIsDigitChar, Bool.and_eq_true, decide_eq_true_eq] at hd
  simp only [pyWs, Bool.or_eq_true, decide_eq_true_eq, Bool.and_eq_true] at hws
  simp only [or_assoc] at hws
  rcases hws with h|h|h|h|h|h|h|h|h|h|h|h|h|h|h|h|h|h|h
  all_goals
    first
      | (subst h; revert hd; decide)
      | (exact absurd (le_trans h.1 hd.2) (by decide))

theorem digitsBr : ∀ (d1 d2 r X : List Char),
    (∀ c ∈ d1, pyIsDigitChar c = true) → (∀ c ∈ d2, pyIsDigitChar c = true) →
    d1 ++ '⟧' :: r = d2 ++ '⟧' :: X → d1 = d2 := by
  intro d1
  induction d1 with
  | nil =>
    intro d2 r X _ h2 heq
    cases d2 with
    | nil => rfl
    | cons c2 r2 =>
      simp only [List.nil_append, List.cons_append, List.cons.injEq] at heq
      have := h2 c2 (List.mem_cons_self _ _)
      rw [← heq.1] at this
      exact absurd this (by decide)
  | cons c1 r1 ih =>
    intro d2 r X h1 h2 heq
    cases d2 with
    | nil =>
      simp only [List.cons_append, List.nil_append, List.cons.injEq] at heq
      have := h1 c1 (List.mem_cons_self _ _)
      rw [heq.1] at this
      exact absurd this (by decide)
    | cons c2 r2 =>
      simp only [List.cons_append, List.cons.injEq] at heq
      rw [heq.1, ih r2 r X (fun c hc => h1 c (List.mem_cons_of_mem _ hc))
        (fun c hc => h2 c (List.mem_cons_of_mem _ hc)) heq.2]

theorem tok_isPrefixOf_tok_append {k n : Nat} {X : List Char}
    (h : (tok k).isPrefixOf (tok n ++ X) = true) : k = n := by
  rw [List.isPrefixOf_iff_prefix] at h
  obtain ⟨r, hr⟩ := h
  simp only [tok, List.cons_append, List.append_assoc, List.cons.injEq] at hr
  obtain ⟨-, -, -, -, hr⟩ := hr
  simp only [List.nil_append] at hr
  exact natDigits_inj (digitsBr _ _ _ _ (natDigits_all_digit k) (natDigits_all_digit n) hr)

theorem tok_tail_no_bracket (n : Nat) :
    '⟦' ∉ ('T' :: 'A' :: 'G' :: (natDigits n ++ ['⟧'])) := by
  intro hmem
  simp only [List.mem_cons, List.mem_append, List.mem_singleton] at hmem
  rcases hmem with h | h | h | h | h
  · exact absurd h (by decide)
  · exact absurd h (by decide)
  · exact absurd h (by decide)
  · exact absurd (natDigits_all_digit n _ h) (by decide)
  · exact absurd h (by decide)

theorem noHit_tok {k n : Nat} (hkn : k ≠ n) (rest : List Char) :
    NoHit (tok n) (tok k) rest := by
  intro a1 a2 heq hne
  cases a1 with
  | nil =>
    rw [List.nil_append] at heq
    subst heq
    rw [← Bool.not_eq_true]
    intro hpre
    exact hkn (tok_isPrefixOf_tok_append hpre)
  | cons c a1' =>
    cases a2 with
    | nil => exact absurd rfl hne
    | cons b a2' =>
      have hb : b ∈ ('T' :: 'A' :: 'G' :: (natDigits n ++ ['⟧'])) := by
        have : tok n = c :: (a1' ++ b :: a2') := by simp [heq]
        rw [tok] at this
        have htail := (List.cons.injEq _ _ _ _).mp this |>.2
        rw [htail]
        exact List.mem_append.mpr (Or.inr (List.mem_cons_self _ _))
      have hbne : ('⟦' == b) = false := by
        by_cases hx : '⟦' = b
        · exact absurd (hx ▸ hb) (tok_tail_no_bracket n)
        · simp [hx]
      show (tok k).isPrefixOf (b :: (a2' ++ rest)) = false
      rw [tok]
      simp [List.isPrefixOf, hbne]

theorem isPrefixOf_append_self (l X : List Char) : l.isPrefixOf (l ++ X) = true := by
  rw [List.isPrefixOf_iff_prefix]
  exact List.prefix_append l X

theorem replaceAll_prefix_hit {pat : List Char} (X rep : List Char) (hpat : pat ≠ []) :
    replaceAll (pat ++ X) pat rep = rep ++ replaceAll X pat rep := by
  cases pat with
  | nil => exact absurd rfl hpat
  | cons p pat' =>
    rw [List.cons_append,
        replaceAll_cons_hit p (pat' ++ X) rep hpat (isPrefixOf_append_self _ _)]
    congr 2
    rw [← List.cons_append, List.drop_left]

theorem restoreStep_cons {c : Char} (hc : c ≠ '⟦') (X : List Char) (e : Nat × List Char) :
    restoreStep (c :: X) e = c :: restoreStep X e := by
  have hpre : (tok e.1).isPrefixOf (c :: X) = false := by
    rw [tok]
    have : ('⟦' == c) = false := by
      by_cases hx : '⟦' = c
      · exact absurd hx.symm hc
      · simp [hx]
    simp [List.isPrefixOf, this]
  simp only [restoreStep, containsSub, hpre, Bool.false_or]
  by_cases hcs : containsSub X (tok e.1) = true
  · simp only [hcs, if_true]
    rw [replaceAll_cons_miss c X e.2 hpre]
  · simp only [Bool.not_eq_true] at hcs
    simp only [hcs, Bool.false_eq_true, if_false]

theorem restoreFold_cons {c : Char} (hc : c ≠ '⟦') :
    ∀ (l : List (Nat × List Char)) (X : List Char),
    List.foldl restoreStep (c :: X) l = c :: List.foldl restoreStep X l := by
  intro l
  induction l with
  | nil => intro X; rfl
  | cons e l' ih =>
    intro X
    rw [List.foldl_cons, restoreStep_cons hc X e, ih, List.foldl_cons]

theorem restoreStep_tok_skip {n : Nat} (X : List Char) {e : Nat × List Char}
    (hne : e.1 ≠ n) : restoreStep (tok n ++ X) e = tok n ++ restoreStep X e := by
  have hnh := noHit_tok hne X
  simp only [restoreStep, containsSub_append_of_noHit hnh]
  by_cases hcs : containsSub X (tok e.1) = true
  · simp only [hcs, if_true]
    exact replaceAll_append_of_noHit hnh
  · simp only [Bool.not_eq_true] at hcs
    simp only [hcs, Bool.false_eq_true, if_false]

theorem restoreFold_tok_skip {n : Nat} :
    ∀ (l : List (Nat × List Char)) (X : List Char), (∀ e ∈ l, e.1 ≠ n) →
    List.foldl restoreStep (tok n ++ X) l = tok n ++ List.foldl restoreStep X l := by
  intro l
  induction l with
  | nil => intro X _; rfl
  | cons e l' ih =>
    intro X hl
    rw [List.foldl_cons, restoreStep_tok_skip X (hl e (List.mem_cons_self _ _)),
        ih _ (fun x hx => hl x (List.mem_cons_of_mem _ hx)), List.foldl_cons]

theorem restoreStep_tok_hit {n : Nat} {tag : List Char} (X : List Char)
    (hX : '⟦' ∉ X) : restoreStep (tok n ++ X) (n, tag) = tag ++ X := by
  have hcs : containsSub (tok n ++ X) (tok n) = true :=
    containsSub_of_isPrefixOf (isPrefixOf_append_self _ _)
  simp only [restoreStep, hcs, if_true]
  rw [replaceAll_prefix_hit X tag (by simp [tok]),
      replaceAll_id_of_noOcc (by rw [tok]; exact noOcc_of_head_not_mem hX)]

/-! ## Lemmas: `preserve_tags` / `restore_tags` round trip -/

theorem takeTagBody_some {rest body after : List Char}
    (h : takeTagBody rest = some (body, after)) :
    rest = body ++ '>' :: after ∧ body ≠ [] ∧ (∀ c ∈ body, c ≠ '>') := by
  simp only [takeTagBody] at h
  split at h
  case _ x heq =>
    by_cases hb : (rest.takeWhile (· ≠ '>')).isEmpty = true
    · rw [if_pos hb] at h; exact absurd h (by simp)
    · rw [if_neg hb] at h
      simp only [Option.some.injEq, Prod.mk.injEq] at h
      obtain ⟨h1, h2⟩ := h
      subst h1
      subst h2
      refine ⟨?_, by simpa using hb, fun c hc => by simpa using List.mem_takeWhile_imp hc⟩
      conv_lhs => rw [← List.takeWhile_append_dropWhile (p := (· ≠ '>')) (l := rest)]
      rw [heq]
  case _ x heq =>
    exact absurd h (by simp)

theorem preserveAuxF_fuelIrrel : ∀ (f1 f2 : Nat) (s : List Char) (n : Nat),
    s.length ≤ f1 → s.length ≤ f2 → preserveAuxF f1 s n = preserveAuxF f2 s n := by
  intro f1
  induction f1 with
  | zero =>
    intro f2 s n h1 _
    have : s = [] := List.length_eq_zero.mp (Nat.le_zero.mp h1)
    subst this
    cases f2 <;> simp [preserveAuxF]
  | succ f ih =>
    intro f2 s n h1 h2
    match s with
    | [] => cases f2 <;> simp [preserveAuxF]
    | c :: rest =>
      have hr : rest.length ≤ f := by
        simp only [List.length_cons] at h1; omega
      match f2, h2 with
      | g + 1, h2 =>
        have hrg : rest.length ≤ g := by
          simp only [List.length_cons] at h2; omega
        simp only [preserveAuxF]
        by_cases hc : c = '<'
        · simp only [hc, if_true]
          cases htb : takeTagBody rest with
          | none =>
            dsimp only
            rw [ih g rest n hr hrg]
          | some p =>
            obtain ⟨body, after⟩ := p
            have hra := (takeTagBody_some htb).1
            have hal : after.length ≤ f := by
              rw [hra] at hr
              simp only [List.length_append, List.length_cons] at hr
              omega
            have halg : after.length ≤ g := by
              rw [hra] at hrg
              simp only [List.length_append, List.length_cons] at hrg
              omega
            dsimp only
            rw [ih g after (n + 1) hal halg]
        · simp only [hc, if_false]
          rw [ih g rest n hr hrg]

theorem preserveAux_nil (n : Nat) : preserveAux [] n = ([], []) := rfl

theorem preserveAux_tag {rest body after : List Char} {n : Nat}
    (h : takeTagBody rest = some (body, after)) :
    preserveAux ('<' :: rest) n =
      (tok n ++ (preserveAux after (n + 1)).1,
       (n, '<' :: (body ++ ['>'])) :: (preserveAux after (n + 1)).2) := by
  have hra := (takeTagBody_some h).1
  have hal : after.length ≤ rest.length := by
    rw [hra]; simp only [List.length_append, List.length_cons]; omega
  simp only [preserveAux, List.length_cons, preserveAuxF, if_true, h]
  rw [preserveAuxF_fuelIrrel rest.length after.length after (n + 1) hal (le_refl _)]

theorem preserveAux_lit_lt {rest : List Char} {n : Nat} (h : takeTagBody rest = none) :
    preserveAux ('<' :: rest) n =
      ('<' :: (preserveAux rest n).1, (preserveAux rest n).2) := by
  simp only [preserveAux, List.length_cons, preserveAuxF, if_true, h]

theorem preserveAux_lit {c : Char} {rest : List Char} {n : Nat} (h : c ≠ '<') :
    preserveAux (c :: rest) n =
      (c :: (preserveAux rest n).1, (preserveAux rest n).2) := by
  simp only [preserveAux, List.length_cons, preserveAuxF, h, if_false]

theorem preserveAux_keys : ∀ (len : Nat) (s : List Char), s.length ≤ len → ∀ n,
    ((preserveAux s n).2).map Prod.fst = List.range' n ((preserveAux s n).2).length := by
  intro len
  induction len with
  | zero =>
    intro s h n
    have : s = [] := List.length_eq_zero.mp (Nat.le_zero.mp h)
    subst this
    simp [preserveAux_nil]
  | succ len ih =>
    intro s h n
    match s with
    | [] => simp [preserveAux_nil]
    | c :: rest =>
      have hr : rest.length ≤ len := by
        simp only [List.length_cons] at h; omega
      by_cases hc : c = '<'
      · subst hc
        cases htb : takeTagBody rest with
        | none => rw [preserveAux_lit_lt htb]; exact ih rest hr n
        | some p =>
          obtain ⟨body, after⟩ := p
          have hra := (takeTagBody_some htb).1
          have hal : after.length ≤ len := by
            rw [hra] at hr
            simp only [List.length_append, List.length_cons] at hr
            omega
          rw [preserveAux_tag htb]
          simp only [List.map_cons, List.length_cons]
          rw [ih after hal (n + 1), List.range'_succ]
      · rw [preserveAux_lit hc]; exact ih rest hr n

theorem preserveAux_tag_chars : ∀ (len : Nat) (s : List Char), s.length ≤ len → ∀ n,
    ∀ e ∈ (preserveAux s n).2, ∀ c ∈ e.2, c ∈ s := by
  intro len
  induction len with
  | zero =>
    intro s h n
    have : s = [] := List.length_eq_zero.mp (Nat.le_zero.mp h)
    subst this
    simp [preserveAux_nil]
  | succ len ih =>
    intro s h n
    match s with
    | [] => simp [preserveAux_nil]
    | c :: rest =>
      have hr : rest.length ≤ len := by
        simp only [List.length_cons] at h; omega
      by_cases hc : c = '<'
      · subst hc
        cases htb : takeTagBody rest with
        | none =>
          rw [preserveAux_lit_lt htb]
          intro e he d hd
          exact List.mem_cons_of_mem _ (ih rest hr n e he d hd)
        | some p =>
          obtain ⟨body, after⟩ := p
          obtain ⟨hra, -, -⟩ := takeTagBody_some htb
          have hal : after.length ≤ len := by
            rw [hra] at hr
            simp only [List.length_append, List.length_cons] at hr
            omega
          rw [preserveAux_tag htb]
          intro e he d hd
          rcases List.mem_cons.mp he with he1 | he1
          · subst he1
            simp only at hd
            rcases List.mem_cons.mp hd with h1 | h1
            · subst h1; exact List.mem_cons_self _ _
            · apply List.mem_cons_of_mem
              rw [hra]
              rcases List.mem_append.mp h1 with h2 | h2
              · exact List.mem_append.mpr (Or.inl h2)
              · rw [List.mem_singleton] at h2
                subst h2
                exact List.mem_append.mpr (Or.inr (List.mem_cons_self _ _))
          · have hda := ih after hal (n + 1) e he1 d hd
            apply List.mem_cons_of_mem
            rw [hra]
            exact List.mem_append.mpr (Or.inr (List.mem_cons_of_mem _ hda))
      · rw [preserveAux_lit hc]
        intro e he d hd
        exact List.mem_cons_of_mem _ (ih rest hr n e he d hd)

theorem insDesc_of_lt_all {x : Nat × List Char} :
    ∀ {l : List (Nat × List Char)}, (∀ y ∈ l, x.1 < y.1) → insDesc x l = l ++ [x] := by
  intro l
  induction l with
  | nil => intro _; rfl
  | cons y ys ih =>
    intro h
    have hnot : ¬(y.1 ≤ x.1) := Nat.not_le.mpr (h y (List.mem_cons_self _ _))
    simp only [insDesc, if_neg hnot]
    rw [ih (fun z hz => h z (List.mem_cons_of_mem _ hz))]
    rfl

theorem sortDesc_of_range' : ∀ (l : List (Nat × List Char)) (n : Nat),
    l.map Prod.fst = List.range' n l.length → sortDesc l = l.reverse := by
  intro l
  induction l with
  | nil => intro n _; rfl
  | cons x xs ih =>
    intro n h
    simp only [List.map_cons, List.length_cons, List.range'_succ, List.cons.injEq] at h
    obtain ⟨hx, hxs⟩ := h
    simp only [sortDesc, List.foldr_cons]
    have hfold : xs.foldr insDesc [] = xs.reverse := ih (n + 1) hxs
    rw [hfold]
    have hall : ∀ y ∈ xs.reverse, x.1 < y.1 := by
      intro y hy
      rw [List.mem_reverse] at hy
      have hmem : y.1 ∈ xs.map Prod.fst := List.mem_map_of_mem Prod.fst hy
      rw [hxs, List.mem_range'_1] at hmem
      omega
    rw [insDesc_of_lt_all hall]
    simp

theorem restoreFold_preserveAux : ∀ (len : Nat) (s : List Char), s.length ≤ len →
    ∀ n, '⟦' ∉ s →
    List.foldl restoreStep (preserveAux s n).1 ((preserveAux s n).2).reverse = s := by
  intro len
  induction len with
  | zero =>
    intro s h n _
    have : s = [] := List.length_eq_zero.mp (Nat.le_zero.mp h)
    subst this
    simp [preserveAux_nil]
  | succ len ih =>
    intro s h n hclean
    match s with
    | [] => simp [preserveAux_nil]
    | c :: rest =>
      have hr : rest.length ≤ len := by
        simp only [List.length_cons] at h; omega
      have hcrest : '⟦' ∉ rest := fun hm => hclean (List.mem_cons_of_mem _ hm)
      have hcc : c ≠ '⟦' := fun hm => hclean (hm ▸ List.mem_cons_self _ _)
      by_cases hc : c = '<'
      · subst hc
        cases htb : takeTagBody rest with
        | none =>
          rw [preserveAux_lit_lt htb]
          rw [restoreFold_cons (by decide) _ _, ih rest hr n hcrest]
        | some p =>
          obtain ⟨body, after⟩ := p
          obtain ⟨hra, -, -⟩ := takeTagBody_some htb
          have hal : after.length ≤ len := by
            rw [hra] at hr
            simp only [List.length_append, List.length_cons] at hr
            omega
          have hcafter : '⟦' ∉ after := by
            intro hm
            apply hcrest
            rw [hra]
            exact List.mem_append.mpr (Or.inr (List.mem_cons_of_mem _ hm))
          rw [preserveAux_tag htb]
          simp only [List.reverse_cons]
          rw [List.foldl_append]
          have hkeys : ∀ e ∈ ((preserveAux after (n + 1)).2).reverse, e.1 ≠ n := by
            intro e he
            rw [List.mem_reverse] at he
            have hmem : e.1 ∈ ((preserveAux after (n + 1)).2).map Prod.fst :=
              List.mem_map_of_mem Prod.fst he
            rw [preserveAux_keys after.length after (le_refl _) (n + 1),
                List.mem_range'_1] at hmem
            omega
          rw [restoreFold_tok_skip _ _ hkeys, ih after hal (n + 1) hcafter]
          simp only [List.foldl_cons, List.foldl_nil]
          rw [restoreStep_tok_hit after hcafter]
          rw [hra]
          simp
      · rw [preserveAux_lit hc]
        simp only
        rw [restoreFold_cons hcc _ _, ih rest hr n hcrest]

/-! ## Lemmas: chunker index bounds, termination, coverage -/

theorem gasi_le (lines : List (List Char)) (intended lookback : Nat) :
    get_adjusted_start_index lines intended lookback ≤ intended := by
  unfold get_adjusted_start_index
  by_cases h0 : intended = 0
  · simp [h0]
  · rw [if_neg h0]
    cases hf : (List.range (min lookback intended)).findSome? (fun k =>
      if lineEndsTerm (lines.getD (intended - 1 - k) []) then some (intended - 1 - k + 1)
      else none) with
    | none =>
      dsimp only
      split <;> omega
    | some v =>
      dsimp only
      obtain ⟨k, hk, hfk⟩ := List.exists_of_findSome?_eq_some hf
      split at hfk
      · have := (Option.some.injEq _ _).mp hfk
        omega
      · exact absurd hfk (by simp)

theorem gaei_bounds (lines : List (List Char)) (intended lookfwd : Nat)
    (h : intended ≤ lines.length) :
    intended ≤ get_adjusted_end_index lines intended lookfwd ∧
    get_adjusted_end_index lines intended lookfwd ≤ lines.length := by
  unfold get_adjusted_end_index
  by_cases h0 : lines.length ≤ intended
  · simp only [h0, if_true]; omega
  · rw [if_neg h0]
    cases hf : (List.range (min lookfwd (lines.length - (intended - 1)))).findSome? (fun k =>
      if lineEndsTerm (lines.getD (intended - 1 + k) []) then some (intended - 1 + k + 1)
      else none) with
    | none =>
      dsimp only
      by_cases hfin : lines.length ≤ intended + lookfwd
      · simp only [hfin, if_true]; omega
      · simp only [hfin, if_false]; omega
    | some v =>
      dsimp only
      obtain ⟨k, hk, hfk⟩ := List.exists_of_findSome?_eq_some hf
      rw [List.mem_range] at hk
      split at hfk
      · have := (Option.some.injEq _ _).mp hfk
        omega
      · exact absurd hfk (by simp)

theorem chunkCore_eq {lines : List (List Char)} {N pos : Nat}
    (hN : 1 ≤ N) (hpos : pos < lines.length) :
    chunkCore lines N pos =
      some (get_adjusted_start_index lines pos (max 1 (N / 4)),
            get_adjusted_end_index lines (min (pos + N) lines.length) (max 1 (N / 4))) ∧
    get_adjusted_start_index lines pos (max 1 (N / 4)) ≤ pos ∧
    pos < get_adjusted_end_index lines (min (pos + N) lines.length) (max 1 (N / 4)) ∧
    get_adjusted_end_index lines (min (pos + N) lines.length) (max 1 (N / 4)) ≤ lines.length := by
  have hs := gasi_le lines pos (max 1 (N / 4))
  have hiend : min (pos + N) lines.length ≤ lines.length := Nat.min_le_right _ _
  have he := gaei_bounds lines (min (pos + N) lines.length) (max 1 (N / 4)) hiend
  have hposlt : pos < min (pos + N) lines.length := by omega
  have hlt : pos < get_adjusted_end_index lines (min (pos + N) lines.length) (max 1 (N / 4)) := by
    omega
  refine ⟨?_, hs, hlt, he.2⟩
  unfold chunkCore
  simp only
  rw [if_neg (by omega : ¬(get_adjusted_end_index lines (min (pos + N) lines.length)
        (max 1 (N / 4)) < get_adjusted_start_index lines pos (max 1 (N / 4))))]
  rw [if_neg (by omega : ¬(get_adjusted_end_index lines (min (pos + N) lines.length)
        (max 1 (N / 4)) ≤ get_adjusted_start_index lines pos (max 1 (N / 4))))]

theorem chunkStep_eq {lines : List (List Char)} {N pos s e : Nat}
    (hcore : chunkCore lines N pos = some (s, e))
    (hse : s ≤ pos) (hpe : pos < e) (hel : e ≤ lines.length) :
    chunkStep lines N pos =
      some (if (pyStrip ((lines.drop s).take (e - s)).flatten).isEmpty then none
            else some (renderChunk lines N s e), e) := by
  have hmainlen : ((lines.drop s).take (e - s)).length = e - s := by
    simp only [List.length_take, List.length_drop]
    omega
  have hmne : ((lines.drop s).take (e - s)).isEmpty = false := by
    cases hml : (lines.drop s).take (e - s) with
    | nil => rw [hml] at hmainlen; simp only [List.length_nil] at hmainlen; omega
    | cons a l => rfl
  unfold chunkStep
  rw [hcore]
  dsimp only
  rw [hmne]
  have hnp : (if e ≤ pos then pos + 1 else e) = e := if_neg (by omega)
  simp only [Bool.false_eq_true, if_false, hnp]
  split <;> rfl

theorem chunkLoopF_fuelIrrel {lines : List (List Char)} {N : Nat} (hN : 1 ≤ N) :
    ∀ (f1 f2 pos : Nat), lines.length - pos ≤ f1 → lines.length - pos ≤ f2 →
    chunkLoopF lines N f1 pos = chunkLoopF lines N f2 pos := by
  intro f1
  induction f1 with
  | zero =>
    intro f2 pos h1 _
    have hp : lines.length ≤ pos := by omega
    cases f2 <;> simp [chunkLoopF, hp]
  | succ f ih =>
    intro f2 pos h1 h2
    by_cases hp : lines.length ≤ pos
    · cases f2 <;> simp [chunkLoopF, hp]
    · have hpos : pos < lines.length := by omega
      match f2, h2 with
      | 0, h2 => omega
      | g + 1, h2 =>
        obtain ⟨hcore, hse, hpe, hel⟩ := chunkCore_eq hN hpos
        have hstep := chunkStep_eq hcore hse hpe hel
        simp only [chunkLoopF, if_neg hp, hstep]
        have hrec := ih g
          (get_adjusted_end_index lines (min (pos + N) lines.length) (max 1 (N / 4)))
          (by omega) (by omega)
        rw [hrec]

theorem chunkTraceF_fuelIrrel {lines : List (List Char)} {N : Nat} (hN : 1 ≤ N) :
    ∀ (f1 f2 pos : Nat), lines.length - pos ≤ f1 → lines.length - pos ≤ f2 →
    chunkTraceF lines N f1 pos = chunkTraceF lines N f2 pos := by
  intro f1
  induction f1 with
  | zero =>
    intro f2 pos h1 _
    have hp : lines.length ≤ pos := by omega
    cases f2 <;> simp [chunkTraceF, hp]
  | succ f ih =>
    intro f2 pos h1 h2
    by_cases hp : lines.length ≤ pos
    · cases f2 <;> simp [chunkTraceF, hp]
    · have hpos : pos < lines.length := by omega
      match f2, h2 with
      | 0, h2 => omega
      | g + 1, h2 =>
        obtain ⟨hcore, hse, hpe, hel⟩ := chunkCore_eq hN hpos
        have hstep := chunkStep_eq hcore hse hpe hel
        simp only [chunkTraceF, if_neg hp, hstep, hcore]
        have hrec := ih g
          (get_adjusted_end_index lines (min (pos + N) lines.length) (max 1 (N / 4)))
          (by omega) (by omega)
        rw [hrec]

theorem chunkLoop_eq_trace {lines : List (List Char)} {N : Nat} (hN : 1 ≤ N) :
    ∀ (fuel pos : Nat),
    chunkLoopF lines N fuel pos =
      (chunkTraceF lines N fuel pos).filterMap
        (fun t => if t.2.2 then some (renderChunk lines N t.1 t.2.1) else none) := by
  intro fuel
  induction fuel with
  | zero => intro pos; simp [chunkLoopF, chunkTraceF]
  | succ f ih =>
    intro pos
    by_cases hp : lines.length ≤ pos
    · simp [chunkLoopF, chunkTraceF, hp]
    · have hpos : pos < lines.length := by omega
      obtain ⟨hcore, hse, hpe, hel⟩ := chunkCore_eq hN hpos
      have hstep := chunkStep_eq hcore hse hpe hel
      simp only [chunkLoopF, chunkTraceF, if_neg hp, hstep, hcore]
      by_cases hws : (pyStrip ((lines.drop
          (get_adjusted_start_index lines pos (max 1 (N / 4)))).take
          (get_adjusted_end_index lines (min (pos + N) lines.length) (max 1 (N / 4)) -
           get_adjusted_start_index lines pos (max 1 (N / 4)))).flatten).isEmpty = true
      · simp only [hws, if_true, Option.isSome_none, List.filterMap_cons]
        simp only [Bool.false_eq_true, if_false]
        exact ih _
      · simp only [Bool.not_eq_true] at hws
        simp only [hws, Bool.false_eq_true, if_false, Option.isSome_some, List.filterMap_cons,
          if_true, Option.some.injEq]
        rw [ih _]

theorem pyStrip_empty_iff (l : List Char) : pyStrip l = [] ↔ ∀ c ∈ l, pyWs c = true := by
  unfold pyStrip pyStripRight pyStripLeft
  constructor
  · intro h c hc
    have hrev : (l.dropWhile pyWs).reverse.dropWhile pyWs = [] := by
      by_contra hne
      have := congrArg List.length h
      simp only [List.length_reverse, List.length_nil] at this
      exact hne (List.length_eq_zero.mp this)
    have hall : ∀ a ∈ (l.dropWhile pyWs).reverse, pyWs a = true :=
      List.dropWhile_eq_nil_iff.mp hrev
    have hall2 : ∀ a ∈ l.dropWhile pyWs, pyWs a = true := by
      intro a ha
      exact hall a (List.mem_reverse.mpr ha)
    have : ∀ a ∈ l, pyWs a = true := by
      intro a ha
      rw [← List.takeWhile_append_dropWhile (p := pyWs) (l := l)] at ha
      rcases List.mem_append.mp ha with h1 | h1
      · exact List.mem_takeWhile_imp h1
      · exact hall2 a h1
    exact this c hc
  · intro h
    have h1 : l.dropWhile pyWs = [] := List.dropWhile_eq_nil_iff.mpr h
    rw [h1]
    rfl

theorem line_mem_span {lines : List (List Char)} {s e j : Nat}
    (hsj : s ≤ j) (hje : j < e) (hel : e ≤ lines.length) :
    lines.getD j [] ∈ (lines.drop s).take (e - s) := by
  have hjl : j < lines.length := by omega
  have hlen : ((lines.drop s).take (e - s)).length = e - s := by
    simp only [List.length_take, List.length_drop]; omega
  have hidx : j - s < ((lines.drop s).take (e - s)).length := by omega
  have hidx2 : j - s < (lines.drop s).length := by
    simp only [List.length_drop]; omega
  have hg : ((lines.drop s).take (e - s)).get ⟨j - s, hidx⟩ = lines.getD j [] := by
    rw [List.get_eq_getElem]
    dsimp only
    rw [List.getElem_take (lines.drop s)]
    rw [List.getElem_drop lines]
    rw [List.getD_eq_getElem lines [] hjl]
    congr 1
    omega
  rw [← hg]
  exact List.get_mem _ _ hidx

theorem chunkTrace_coverage {lines : List (List Char)} {N : Nat} (hN : 1 ≤ N) :
    ∀ (fuel pos : Nat), lines.length - pos ≤ fuel →
    ∀ j, pos ≤ j → j < lines.length → (pyStrip (lines.getD j [])).isEmpty = false →
    ∃ t ∈ chunkTraceF lines N fuel pos, t.2.2 = true ∧ t.1 ≤ j ∧ j < t.2.1 := by
  intro fuel
  induction fuel with
  | zero => intro pos hf j h1 h2 _; omega
  | succ f ih =>
    intro pos hf j h1 h2 hws
    have hpos : pos < lines.length := by omega
    obtain ⟨hcore, hse, hpe, hel⟩ := chunkCore_eq hN hpos
    have hstep := chunkStep_eq hcore hse hpe hel
    simp only [chunkTraceF, if_neg (by omega : ¬lines.length ≤ pos), hstep, hcore]
    set s := get_adjusted_start_index lines pos (max 1 (N / 4)) with hs
    set e := get_adjusted_end_index lines (min (pos + N) lines.length) (max 1 (N / 4)) with he
    by_cases hje : j < e
    · have hmain : (pyStrip ((lines.drop s).take (e - s)).flatten).isEmpty = false := by
        rw [← Bool.not_eq_true]
        intro hemp
        rw [List.isEmpty_iff] at hemp
        have hallws := (pyStrip_empty_iff _).mp hemp
        have hline : ∀ c ∈ lines.getD j [], pyWs c = true := by
          intro c hc
          apply hallws
          rw [List.mem_flatten]
          exact ⟨lines.getD j [], line_mem_span (by omega) hje hel, hc⟩
        have : pyStrip (lines.getD j []) = [] := (pyStrip_empty_iff _).mpr hline
        rw [this] at hws
        simp at hws
      rw [hmain]
      simp only [Bool.false_eq_true, if_false, Option.isSome_some]
      exact ⟨(s, e, true), List.mem_cons_self _ _, rfl, by omega, hje⟩
    · have hcov := ih e (by omega) j (by omega) h2 hws
      obtain ⟨t, ht, htp⟩ := hcov
      split
      · exact ⟨t, List.mem_cons_of_mem _ ht, htp⟩
      · exact ⟨t, List.mem_cons_of_mem _ ht, htp⟩

/-! ## Claim theorems: Tag Preserver (C1) and chunker (C2, C9) -/

/-- Claim C1, amended: for every HTML/XML fragment `h` that does not
already contain the placeholder bracket character `⟦` (in particular any
fragment without pre-existing `⟦TAGn⟧` placeholders),
`restore_tags (preserve_tags h)` returns `h` exactly, with restoration
iterating placeholder keys in descending numeric order. The unrestricted
claim is refuted by `claim_C1_counterexample`. -/
theorem claim_C1_roundtrip (h : List Char) (hclean : '⟦' ∉ h) :
    restore_tags (preserve_tags h).1 (preserve_tags h).2 = h := by
  have hpt : preserve_tags h = preserveAux h 0 := rfl
  rw [hpt, restore_tags]
  rw [sortDesc_of_range' _ 0 (preserveAux_keys h.length h (le_refl _) 0)]
  exact restoreFold_preserveAux h.length h (le_refl _) 0 hclean

/-- Witness for C1: the round trip on a concrete fragment. -/
theorem claim_C1_roundtrip_witness :
    '⟦' ∉ "a<b>c</b>".data ∧
    restore_tags (preserve_tags "a<b>c</b>".data).1 (preserve_tags "a<b>c</b>".data).2 =
      "a<b>c</b>".data :=
  ⟨by decide, claim_C1_roundtrip "a<b>c</b>".data (by decide)⟩

/-- Counterexample to C1 as stated: for the fragment `⟦TAG0⟧<b>`, which
already contains the placeholder token `⟦TAG0⟧`, `preserve_tags` maps the
tag `<b>` to that same token, and `restore_tags` replaces both
occurrences, returning `<b><b>` instead of the original fragment. -/
theorem claim_C1_counterexample :
    restore_tags (preserve_tags "⟦TAG0⟧<b>".data).1 (preserve_tags "⟦TAG0⟧<b>".data).2 =
      "<b><b>".data ∧
    "<b><b>".data ≠ "⟦TAG0⟧<b>".data := by
  constructor <;> decide

/-- Claim C9: the chunker terminates — on every loop iteration with the
cursor inside the line list the step yields a new cursor that strictly
advances (and never past the end), so fuel `lines.length` suffices: the
loop's value is independent of any sufficient fuel, and
`split_text_into_chunks_with_context` is exactly the loop run with that
fuel. -/
theorem claim_C9_termination (lines : List (List Char)) (N : Nat) (hN : 1 ≤ N) :
    (∀ pos, pos < lines.length →
      ∃ oc e, chunkStep lines N pos = some (oc, e) ∧ pos < e ∧ e ≤ lines.length) ∧
    (∀ f1 f2 pos, lines.length - pos ≤ f1 → lines.length - pos ≤ f2 →
      chunkLoopF lines N f1 pos = chunkLoopF lines N f2 pos) ∧
    (∀ t : List Char, split_text_into_chunks_with_context t N =
      chunkLoopF (refineLines t) N (refineLines t).length 0) := by
  refine ⟨?_, fun f1 f2 pos => chunkLoopF_fuelIrrel hN f1 f2 pos, ?_⟩
  · intro pos hpos
    obtain ⟨hcore, hse, hpe, hel⟩ := chunkCore_eq hN hpos
    exact ⟨_, _, chunkStep_eq hcore hse hpe hel, hpe, hel⟩
  · intro t
    unfold split_text_into_chunks_with_context
    by_cases hemp : (refineLines t).isEmpty
    · rw [if_pos hemp]
      rw [List.isEmpty_iff] at hemp
      rw [hemp]
      rfl
    · rw [if_neg hemp]

/-- Witness for C9 at a concrete input: extra fuel does not change the
chunk list, and the step from cursor 0 advances. -/
theorem claim_C9_termination_witness :
    chunkLoopF [['H', 'i', '.'], ['Y', 'o', '.']] 1 7 0 =
      chunkLoopF [['H', 'i', '.'], ['Y', 'o', '.']] 1 2 0 :=
  (claim_C9_termination [['H', 'i', '.'], ['Y', 'o', '.']] 1 (by decide)).2.1 7 2 0
    (by decide) (by decide)

/-- Claim C2, amended: no logical line is lost — every non-whitespace
logical line of the refined text lies inside the main span of at least
one emitted chunk (whitespace-only spans are skipped) — and the chunk
list is exactly the rendering of the emitted spans of the loop trace.
However a line MAY be duplicated: the sentence-boundary start adjustment
can move a chunk's main-span start back before the previous chunk's end
(even back to line 0), so the original no-duplication clause is false;
see `claim_C2_counterexample`. -/
theorem claim_C2_coverage (t : List Char) (N : Nat) (hN : 1 ≤ N) :
    split_text_into_chunks_with_context t N =
      (chunkTraceF (refineLines t) N (refineLines t).length 0).filterMap
        (fun tr => if tr.2.2 then some (renderChunk (refineLines t) N tr.1 tr.2.1)
                   else none) ∧
    ∀ j, j < (refineLines t).length →
      (pyStrip ((refineLines t).getD j [])).isEmpty = false →
      ∃ tr ∈ chunkTraceF (refineLines t) N (refineLines t).length 0,
        tr.2.2 = true ∧ tr.1 ≤ j ∧ j < tr.2.1 := by
  constructor
  · unfold split_text_into_chunks_with_context
    by_cases hemp : (refineLines t).isEmpty
    · rw [if_pos hemp]
      rw [List.isEmpty_iff] at hemp
      rw [hemp]
      rfl
    · rw [if_neg hemp]
      exact chunkLoop_eq_trace hN _ 0
  · intro j hj hws
    exact chunkTrace_coverage hN _ 0 (by omega) j (by omega) hj hws

/-- Witness for C2 at a concrete input. -/
theorem claim_C2_coverage_witness :
    (split_text_into_chunks_with_context "Hi.\nYo.".data 1 =
      (chunkTraceF (refineLines "Hi.\nYo.".data) 1 (refineLines "Hi.\nYo.".data).length 0).filterMap
        (fun tr => if tr.2.2 then some (renderChunk (refineLines "Hi.\nYo.".data) 1 tr.1 tr.2.1)
                   else none)) ∧
    ∃ tr ∈ chunkTraceF (refineLines "Hi.\nYo.".data) 1 (refineLines "Hi.\nYo.".data).length 0,
      tr.2.2 = true ∧ tr.1 ≤ 0 ∧ 0 < tr.2.1 :=
  ⟨(claim_C2_coverage "Hi.\nYo.".data 1 (by decide)).1,
   (claim_C2_coverage "Hi.\nYo.".data 1 (by decide)).2 0 (by decide) (by decide)⟩

/-- Counterexample to C2 as stated: for the text `a\nb\nc` with N = 1,
the logical lines are `a`, `b`, `c`; the loop emits the main spans
[0, 1) and [0, 3), so the non-whitespace line 0 (`a`) appears in the main
content of two different chunks (`"a"` and `"a\nb\nc"`): a line is
duplicated, refuting the no-duplication clause. -/
theorem claim_C2_counterexample :
    refineLines "a\nb\nc".data = [['a'], ['b'], ['c']] ∧
    chunkTraceF (refineLines "a\nb\nc".data) 1 (refineLines "a\nb\nc".data).length 0 =
      [(0, 1, true), (0, 3, true)] ∧
    split_text_into_chunks_with_context "a\nb\nc".data 1 =
      [⟨[], ['a'], []⟩, ⟨[], ['a', '\n', 'b', '\n', 'c'], []⟩] ∧
    (pyStrip ['a']).isEmpty = false := by
  refine ⟨?_, ?_, ?_, ?_⟩ <;> decide

/-! ## Lemmas and claim theorem: SRT update frame property (C10) -/

theorem lastVal_foldl_init (i : Nat) : ∀ (l : List (Nat × List Char)) (a : Option (List Char)),
    l.foldl (fun acc e => if e.1 = i then some e.2 else acc) a =
      match l.foldl (fun acc e => if e.1 = i then some e.2 else acc) none with
      | some v => some v
      | none => a := by
  intro l
  induction l with
  | nil => intro a; rfl
  | cons e l ih =>
    intro a
    simp only [List.foldl_cons]
    rw [ih (if e.1 = i then some e.2 else a), ih (if e.1 = i then some e.2 else none)]
    cases l.foldl (fun acc e => if e.1 = i then some e.2 else acc) none with
    | some v => rfl
    | none =>
      by_cases he : e.1 = i <;> simp [he]

theorem lastVal_cons (e : Nat × List Char) (l : List (Nat × List Char)) (i : Nat) :
    lastVal (e :: l) i =
      match lastVal l i with
      | some v => some v
      | none => if e.1 = i then some e.2 else none := by
  unfold lastVal
  simp only [List.foldl_cons]
  rw [lastVal_foldl_init i l (if e.1 = i then some e.2 else none)]

theorem getD_set_sub (l : List Subtitle) (k : Nat) (v : Subtitle) (i : Nat) (d : Subtitle) :
    (l.set k v).getD i d = if k = i ∧ i < l.length then v else l.getD i d := by
  by_cases hi : i < l.length
  · rw [List.getD_eq_getElem _ _ (by simpa using hi), List.getElem_set,
        List.getD_eq_getElem _ _ hi]
    by_cases hk : k = i <;> simp [hk, hi]
  · rw [List.getD_eq_default _ _ (by simpa using Nat.le_of_not_lt hi),
        List.getD_eq_default _ _ (Nat.le_of_not_lt hi)]
    simp only [if_neg (by omega : ¬(k = i ∧ i < l.length))]

theorem update_subs_step (subs : List Subtitle) (e : Nat × List Char) :
    (if h : e.1 < subs.length then
       subs.set e.1 { subs.get ⟨e.1, h⟩ with text := e.2 } else subs).length = subs.length := by
  split <;> simp

theorem claim_C10_core : ∀ (trs : List (Nat × List Char)) (subs : List Subtitle),
    (update_translated_subtitles subs trs).length = subs.length ∧
    (∀ i (d : Subtitle), i < subs.length →
      ((update_translated_subtitles subs trs).getD i d).number = (subs.getD i d).number ∧
      ((update_translated_subtitles subs trs).getD i d).start_time = (subs.getD i d).start_time ∧
      ((update_translated_subtitles subs trs).getD i d).end_time = (subs.getD i d).end_time ∧
      ((update_translated_subtitles subs trs).getD i d).original_text =
        (subs.getD i d).original_text ∧
      ((update_translated_subtitles subs trs).getD i d).text =
        (lastVal trs i).getD (subs.getD i d).text) := by
  intro trs
  induction trs with
  | nil =>
    intro subs
    refine ⟨rfl, fun i d hi => ?_⟩
    simp [update_translated_subtitles, lastVal]
  | cons e rest ih =>
    intro subs
    have hstep : update_translated_subtitles subs (e :: rest) =
        update_translated_subtitles
          (if h : e.1 < subs.length then
            subs.set e.1 { subs.get ⟨e.1, h⟩ with text := e.2 } else subs) rest := by
      simp [update_translated_subtitles]
    set subs' := (if h : e.1 < subs.length then
      subs.set e.1 { subs.get ⟨e.1, h⟩ with text := e.2 } else subs) with hsubs'
    have hlen' : subs'.length = subs.length := by
      rw [hsubs']; split <;> simp
    obtain ⟨ihlen, ihget⟩ := ih subs'
    constructor
    · rw [hstep, ihlen, hlen']
    · intro i d hi
      have hi' : i < subs'.length := by omega
      obtain ⟨h1, h2, h3, h4, h5⟩ := ihget i d hi'
      rw [hstep]
      have hget' : ∀ (hsel : True),
          (subs'.getD i d).number = (subs.getD i d).number ∧
          (subs'.getD i d).start_time = (subs.getD i d).start_time ∧
          (subs'.getD i d).end_time = (subs.getD i d).end_time ∧
          (subs'.getD i d).original_text = (subs.getD i d).original_text ∧
          (subs'.getD i d).text =
            (if e.1 = i ∧ i < subs.length then e.2 else (subs.getD i d).text) := by
        intro _
        rw [hsubs']
        split
        case isTrue hlt =>
          rw [getD_set_sub]
          by_cases hei : e.1 = i ∧ i < subs.length
          · simp only [if_pos hei]
            obtain ⟨hei1, hei2⟩ := hei
            subst hei1
            rw [List.getD_eq_getElem _ _ hei2]
            refine ⟨?_, ?_, ?_, ?_, ?_⟩ <;> first | rfl | trivial
          · simp only [if_neg hei]
            refine ⟨?_, ?_, ?_, ?_, ?_⟩ <;> first | rfl | trivial
        case isFalse hge =>
          have : ¬(e.1 = i ∧ i < subs.length) := by omega
          rw [if_neg this]
          refine ⟨?_, ?_, ?_, ?_, ?_⟩ <;> first | rfl | trivial
      obtain ⟨g1, g2, g3, g4, g5⟩ := hget' trivial
      refine ⟨by rw [h1, g1], by rw [h2, g2], by rw [h3, g3], by rw [h4, g4], ?_⟩
      rw [h5, g5, lastVal_cons]
      cases hlv : lastVal rest i with
      | some v => rfl
      | none =>
        by_cases hei : e.1 = i
        · have : e.1 = i ∧ i < subs.length := ⟨hei, hi⟩
          simp [hei, this]
        · have : ¬(e.1 = i ∧ i < subs.length) := by tauto
          simp [hei, this]

theorem update_subs_oob : ∀ (trs : List (Nat × List Char)) (subs : List Subtitle),
    (∀ e ∈ trs, subs.length ≤ e.1) → update_translated_subtitles subs trs = subs := by
  intro trs
  induction trs with
  | nil => intro subs _; rfl
  | cons e rest ih =>
    intro subs hall
    have hge : ¬ e.1 < subs.length :=
      Nat.not_lt.mpr (hall e (List.mem_cons_self _ _))
    have hstep : update_translated_subtitles subs (e :: rest) =
        update_translated_subtitles subs rest := by
      simp [update_translated_subtitles, hge]
    rw [hstep]
    exact ih subs (fun x hx => hall x (List.mem_cons_of_mem _ hx))

/-- Claim C10: `update_translated_subtitles` only replaces the `text`
field of subtitles at in-range indices (with the last translation listed
for that index); entries whose index is out of range are silently
ignored; every subtitle's `number`, `start_time`, `end_time` and
`original_text`, as well as the list's length (and hence order), are
unchanged. -/
theorem claim_C10_update_frame (subs : List Subtitle) (trs : List (Nat × List Char)) :
    (update_translated_subtitles subs trs).length = subs.length ∧
    (∀ i (d : Subtitle), i < subs.length →
      ((update_translated_subtitles subs trs).getD i d).number = (subs.getD i d).number ∧
      ((update_translated_subtitles subs trs).getD i d).start_time = (subs.getD i d).start_time ∧
      ((update_translated_subtitles subs trs).getD i d).end_time = (subs.getD i d).end_time ∧
      ((update_translated_subtitles subs trs).getD i d).original_text =
        (subs.getD i d).original_text ∧
      ((update_translated_subtitles subs trs).getD i d).text =
        (lastVal trs i).getD (subs.getD i d).text) ∧
    ((∀ e ∈ trs, subs.length ≤ e.1) → update_translated_subtitles subs trs = subs) := by
  obtain ⟨h1, h2⟩ := claim_C10_core trs subs
  exact ⟨h1, fun i d hi => h2 i d hi, update_subs_oob trs subs⟩

/-- Witness for C10 at a concrete subtitle list and mapping: index 0 is
translated (the later entry for index 0 wins), index 1 is untouched, the
out-of-range entry for index 7 is ignored. -/
theorem claim_C10_update_frame_witness :
    (update_translated_subtitles
        [⟨['1'], [], [], ['a'], ['a']⟩, ⟨['2'], [], [], ['b'], ['b']⟩]
        [(0, ['x']), (7, ['z']), (0, ['y'])]).length = 2 ∧
    ((update_translated_subtitles
        [⟨['1'], [], [], ['a'], ['a']⟩, ⟨['2'], [], [], ['b'], ['b']⟩]
        [(0, ['x']), (7, ['z']), (0, ['y'])]).getD 0 ⟨[], [], [], [], []⟩).text =
      (lastVal [(0, ['x']), (7, ['z']), (0, ['y'])] 0).getD ['a'] ∧
    ((update_translated_subtitles
        [⟨['1'], [], [], ['a'], ['a']⟩, ⟨['2'], [], [], ['b'], ['b']⟩]
        [(0, ['x']), (7, ['z']), (0, ['y'])]).getD 0 ⟨[], [], [], [], []⟩).original_text =
      ['a'] :=
  ⟨(claim_C10_update_frame
      [⟨['1'], [], [], ['a'], ['a']⟩, ⟨['2'], [], [], ['b'], ['b']⟩]
      [(0, ['x']), (7, ['z']), (0, ['y'])]).1,
   ((claim_C10_update_frame
      [⟨['1'], [], [], ['a'], ['a']⟩, ⟨['2'], [], [], ['b'], ['b']⟩]
      [(0, ['x']), (7, ['z']), (0, ['y'])]).2.1 0 ⟨[], [], [], [], []⟩ (by decide)).2.2.2.2,
   ((claim_C10_update_frame
      [⟨['1'], [], [], ['a'], ['a']⟩, ⟨['2'], [], [], ['b'], ['b']⟩]
      [(0, ['x']), (7, ['z']), (0, ['y'])]).2.1 0 ⟨[], [], [], [], []⟩ (by decide)).2.2.2.1⟩

/-! ## Lemmas and claim theorems: SRT grouping (C4) -/

theorem blockCharSum_append (b : List Subtitle) (sub : Subtitle) :
    blockCharSum (b ++ [sub]) = blockCharSum b + (pyStrip sub.text).length := by
  simp [blockCharSum]

theorem blockNonEmptyCount_append_ws {sub : Subtitle} (h : (pyStrip sub.text).isEmpty = true)
    (b : List Subtitle) : blockNonEmptyCount (b ++ [sub]) = blockNonEmptyCount b := by
  simp [blockNonEmptyCount, List.filter_append, h]

theorem blockNonEmptyCount_append_nonws {sub : Subtitle}
    (h : (pyStrip sub.text).isEmpty = false) (b : List Subtitle) :
    blockNonEmptyCount (b ++ [sub]) = blockNonEmptyCount b + 1 := by
  simp [blockNonEmptyCount, List.filter_append, h]

theorem blockNonEmptyCount_le_length (b : List Subtitle) :
    blockNonEmptyCount b ≤ b.length :=
  List.length_filter_le _ b

theorem blockCharSum_ws_zero {sub : Subtitle} (h : (pyStrip sub.text).isEmpty = true) :
    (pyStrip sub.text).length = 0 := by
  rw [List.isEmpty_iff] at h
  simp [h]

theorem group_fold_right : ∀ (lpb mcpb : Nat) (subs : List Subtitle) (st : GroupState),
    st.current ≠ [] →
    ((subs.foldl (groupStep lpb mcpb) st).blocks.flatten ++
       (subs.foldl (groupStep lpb mcpb) st).current =
     st.blocks.flatten ++ st.current ++ subs) ∧
    (subs.foldl (groupStep lpb mcpb) st).current ≠ [] := by
  intro lpb mcpb subs
  induction subs with
  | nil => intro st h; exact ⟨by simp, h⟩
  | cons sub rest ih =>
    intro st h
    rw [List.foldl_cons]
    by_cases hws : (pyStrip sub.text).isEmpty = true
    · have hstep : groupStep lpb mcpb st sub = { st with current := st.current ++ [sub] } := by
        unfold groupStep
        simp [hws, List.isEmpty_iff, h]
      rw [hstep]
      obtain ⟨ha, hb⟩ := ih { st with current := st.current ++ [sub] } (by simp)
      refine ⟨?_, hb⟩
      rw [ha]
      simp
    · rw [Bool.not_eq_true] at hws
      by_cases hfl : (lpb ≤ st.current.length ∨ mcpb < st.charCount + (pyStrip sub.text).length)
      · have hstep : groupStep lpb mcpb st sub =
            { blocks := st.blocks ++ [st.current]
              current := [sub]
              charCount := (pyStrip sub.text).length } := by
          unfold groupStep
          rw [if_neg (by simp [hws])]
          rw [if_pos]
          simp only [Bool.and_eq_true, Bool.not_eq_true', List.isEmpty_iff, Bool.or_eq_true,
            decide_eq_true_eq]
          exact ⟨by simpa using h, by omega⟩
        rw [hstep]
        obtain ⟨ha, hb⟩ := ih { blocks := st.blocks ++ [st.current]
                                current := [sub]
                                charCount := (pyStrip sub.text).length } (by simp)
        refine ⟨?_, hb⟩
        rw [ha]
        simp
      · have hstep : groupStep lpb mcpb st sub =
            { st with
              current := st.current ++ [sub]
              charCount := st.charCount + (pyStrip sub.text).length } := by
          unfold groupStep
          rw [if_neg (by simp [hws])]
          rw [if_neg]
          simp only [Bool.and_eq_true, Bool.not_eq_true', List.isEmpty_iff, Bool.or_eq_true,
            decide_eq_true_eq]
          intro hcon
          exact hfl (by omega)
        rw [hstep]
        obtain ⟨ha, hb⟩ := ih { st with
          current := st.current ++ [sub]
          charCount := st.charCount + (pyStrip sub.text).length } (by simp)
        refine ⟨?_, hb⟩
        rw [ha]
        simp

theorem groupStep_ws_empty {lpb mcpb : Nat} {st : GroupState} {sub : Subtitle}
    (hws : (pyStrip sub.text).isEmpty = true) (h : st.current = []) :
    groupStep lpb mcpb st sub = st := by
  unfold groupStep
  simp [hws, List.isEmpty_iff, h]

theorem groupStep_ws_attach {lpb mcpb : Nat} {st : GroupState} {sub : Subtitle}
    (hws : (pyStrip sub.text).isEmpty = true) (h : st.current ≠ []) :
    groupStep lpb mcpb st sub = { st with current := st.current ++ [sub] } := by
  unfold groupStep
  simp [hws, List.isEmpty_iff, h]

theorem groupStep_flush {lpb mcpb : Nat} {st : GroupState} {sub : Subtitle}
    (hws : (pyStrip sub.text).isEmpty = false) (h : st.current ≠ [])
    (hex : lpb ≤ st.current.length ∨ mcpb < st.charCount + (pyStrip sub.text).length) :
    groupStep lpb mcpb st sub =
      { blocks := st.blocks ++ [st.current]
        current := [sub]
        charCount := (pyStrip sub.text).length } := by
  unfold groupStep
  rw [if_neg (by simp [hws])]
  rw [if_pos]
  simp only [Bool.and_eq_true, Bool.not_eq_true', List.isEmpty_iff, Bool.or_eq_true,
    decide_eq_true_eq]
  exact ⟨by simpa using h, by omega⟩

theorem groupStep_append {lpb mcpb : Nat} {st : GroupState} {sub : Subtitle}
    (hws : (pyStrip sub.text).isEmpty = false)
    (hex : st.current = [] ∨
      ¬(lpb ≤ st.current.length ∨ mcpb < st.charCount + (pyStrip sub.text).length)) :
    groupStep lpb mcpb st sub =
      { st with
        current := st.current ++ [sub]
        charCount := st.charCount + (pyStrip sub.text).length } := by
  unfold groupStep
  rw [if_neg (by simp [hws])]
  rw [if_neg]
  simp only [Bool.and_eq_true, Bool.not_eq_true', List.isEmpty_iff, Bool.or_eq_true,
    decide_eq_true_eq]
  rintro ⟨hne, hor⟩
  rcases hex with hx | hx
  · rw [hx] at hne
    simp at hne
  · exact hx (by omega)

theorem group_fold_bounds : ∀ (lpb mcpb : Nat), 1 ≤ lpb → ∀ (subs : List Subtitle)
    (st : GroupState),
    (∀ b ∈ st.blocks, blockNonEmptyCount b ≤ lpb ∧
      (blockCharSum b ≤ mcpb ∨ blockNonEmptyCount b = 1)) →
    blockNonEmptyCount st.current ≤ lpb →
    st.charCount = blockCharSum st.current →
    (blockCharSum st.current ≤ mcpb ∨ blockNonEmptyCount st.current = 1) →
    (∀ b ∈ (subs.foldl (groupStep lpb mcpb) st).blocks, blockNonEmptyCount b ≤ lpb ∧
      (blockCharSum b ≤ mcpb ∨ blockNonEmptyCount b = 1)) ∧
    blockNonEmptyCount (subs.foldl (groupStep lpb mcpb) st).current ≤ lpb ∧
    (subs.foldl (groupStep lpb mcpb) st).charCount =
      blockCharSum (subs.foldl (groupStep lpb mcpb) st).current ∧
    (blockCharSum (subs.foldl (groupStep lpb mcpb) st).current ≤ mcpb ∨
      blockNonEmptyCount (subs.foldl (groupStep lpb mcpb) st).current = 1) := by
  intro lpb mcpb hlpb subs
  induction subs with
  | nil => intro st h1 h2 h3 h4; exact ⟨h1, h2, h3, h4⟩
  | cons sub rest ih =>
    intro st h1 h2 h3 h4
    rw [List.foldl_cons]
    by_cases hws : (pyStrip sub.text).isEmpty = true
    · by_cases hcur : st.current = []
      · rw [groupStep_ws_empty hws hcur]
        exact ih st h1 h2 h3 h4
      · rw [groupStep_ws_attach hws hcur]
        apply ih
        · exact h1
        · rwa [blockNonEmptyCount_append_ws hws]
        · rw [blockCharSum_append, blockCharSum_ws_zero hws]
          simpa using h3
        · rw [blockCharSum_append, blockCharSum_ws_zero hws,
              blockNonEmptyCount_append_ws hws]
          simpa using h4
    · rw [Bool.not_eq_true] at hws
      by_cases hcur : st.current = []
      · rw [groupStep_append hws (Or.inl hcur)]
        apply ih
        · exact h1
        · rw [hcur]
          simp only [List.nil_append]
          rw [show blockNonEmptyCount [sub] = 1 from by simp [blockNonEmptyCount, hws]]
          omega
        · rw [hcur] at h3 ⊢
          simp only [List.nil_append]
          rw [h3]
          simp [blockCharSum]
        · rw [hcur]
          simp only [List.nil_append]
          right
          simp [blockNonEmptyCount, hws]
      · by_cases hex : lpb ≤ st.current.length ∨ mcpb < st.charCount + (pyStrip sub.text).length
        · rw [groupStep_flush hws hcur hex]
          apply ih
          · intro b hb
            rcases List.mem_append.mp hb with hb1 | hb1
            · exact h1 b hb1
            · rw [List.mem_singleton] at hb1
              subst hb1
              exact ⟨h2, h4⟩
          · simp only
            rw [show blockNonEmptyCount [sub] = 1 from by simp [blockNonEmptyCount, hws]]
            omega
          · simp [blockCharSum]
          · right
            simp [blockNonEmptyCount, hws]
        · rw [groupStep_append hws (Or.inr hex)]
          apply ih
          · exact h1
          · simp only
            rw [blockNonEmptyCount_append_nonws hws]
            have hcle := blockNonEmptyCount_le_length st.current
            omega
          · simp only
            rw [blockCharSum_append, h3]
          · simp only
            left
            rw [blockCharSum_append]
            omega

theorem group_fold_start (lpb mcpb : Nat) : ∀ (subs : List Subtitle),
    ((subs.foldl (groupStep lpb mcpb) ⟨[], [], 0⟩).blocks.flatten ++
       (subs.foldl (groupStep lpb mcpb) ⟨[], [], 0⟩).current = subs.dropWhile wsOnlySub) ∧
    ((subs.foldl (groupStep lpb mcpb) ⟨[], [], 0⟩).current = [] →
      (subs.foldl (groupStep lpb mcpb) ⟨[], [], 0⟩).blocks = []) := by
  intro subs
  induction subs with
  | nil => exact ⟨rfl, fun _ => rfl⟩
  | cons sub rest ih =>
    rw [List.foldl_cons]
    by_cases hws : (pyStrip sub.text).isEmpty = true
    · rw [groupStep_ws_empty hws rfl]
      have hdrop : (sub :: rest).dropWhile wsOnlySub = rest.dropWhile wsOnlySub := by
        rw [List.dropWhile_cons_of_pos]
        simpa [wsOnlySub] using hws
      rw [hdrop]
      exact ih
    · rw [Bool.not_eq_true] at hws
      rw [groupStep_append hws (Or.inl rfl)]
      dsimp only
      simp only [List.nil_append]
      have hdrop : (sub :: rest).dropWhile wsOnlySub = sub :: rest := by
        rw [List.dropWhile_cons_of_neg]
        simp [wsOnlySub, hws]
      rw [hdrop]
      obtain ⟨ha, hb⟩ := group_fold_right lpb mcpb rest
        { blocks := ([] : List (List Subtitle))
          current := [sub]
          charCount := 0 + (pyStrip sub.text).length } (by simp)
      refine ⟨?_, fun hc => absurd hc hb⟩
      rw [ha]
      simp

/-- Claim C4, amended: the blocks of `group_subtitles_for_translation`
partition, in order, the subtitle list with its leading whitespace-only
subtitles removed (a leading whitespace-only subtitle is dropped, so the
blocks do not partition the full list — see the counterexample); each
block contains at most `lines_per_block` non-empty subtitles; each
block's total stripped-character count is at most `max_chars_per_block`
unless the block holds exactly one non-empty subtitle (a single oversized
subtitle cannot be split). Whitespace-only subtitles attach without
consuming the character budget, but they do occupy slots counted by the
line-budget check. -/
theorem claim_C4_grouping (subs : List Subtitle) (lpb mcpb : Nat) (hl : 1 ≤ lpb) :
    (group_subtitles_for_translation subs lpb mcpb).flatten = subs.dropWhile wsOnlySub ∧
    (∀ b ∈ group_subtitles_for_translation subs lpb mcpb,
      blockNonEmptyCount b ≤ lpb ∧ (blockCharSum b ≤ mcpb ∨ blockNonEmptyCount b = 1)) := by
  unfold group_subtitles_for_translation
  by_cases hemp : subs.isEmpty = true
  · rw [if_pos hemp]
    rw [List.isEmpty_iff] at hemp
    subst hemp
    exact ⟨rfl, by simp⟩
  · rw [if_neg (by simpa using hemp)]
    obtain ⟨hpart, himp⟩ := group_fold_start lpb mcpb subs
    obtain ⟨hb1, hb2, hb3, hb4⟩ := group_fold_bounds lpb mcpb hl subs ⟨[], [], 0⟩
      (by simp) (by simp [blockNonEmptyCount]) (by simp [blockCharSum])
      (Or.inl (by simp [blockCharSum]))
    by_cases hc : (subs.foldl (groupStep lpb mcpb) ⟨[], [], 0⟩).current.isEmpty = true
    · rw [if_pos hc]
      rw [List.isEmpty_iff] at hc
      rw [himp hc] at hpart ⊢
      rw [hc] at hpart
      refine ⟨by simpa using hpart, by simp⟩
    · rw [if_neg (by simpa using hc)]
      constructor
      · rw [List.flatten_append]
        simpa using hpart
      · intro b hb
        rcases List.mem_append.mp hb with hb1m | hb1m
        · exact hb1 b hb1m
        · rw [List.mem_singleton] at hb1m
          subst hb1m
          exact ⟨hb2, hb4⟩

/-- Witness for C4 with the default budgets on a concrete list: one
non-empty subtitle followed by a whitespace-only one. -/
theorem claim_C4_grouping_witness :
    (group_subtitles_for_translation
        [⟨['1'], [], [], ['a'], ['a']⟩, ⟨['2'], [], [], [' '], [' ']⟩] 5 500).flatten =
      ([⟨['1'], [], [], ['a'], ['a']⟩, ⟨['2'], [], [], [' '], [' ']⟩] :
        List Subtitle).dropWhile wsOnlySub ∧
    (∀ b ∈ group_subtitles_for_translation
        [⟨['1'], [], [], ['a'], ['a']⟩, ⟨['2'], [], [], [' '], [' ']⟩] 5 500,
      blockNonEmptyCount b ≤ 5 ∧ (blockCharSum b ≤ 500 ∨ blockNonEmptyCount b = 1)) :=
  claim_C4_grouping
    [⟨['1'], [], [], ['a'], ['a']⟩, ⟨['2'], [], [], [' '], [' ']⟩] 5 500 (by decide)

/-- Counterexample to C4 as stated: a leading whitespace-only subtitle is
attached to no block (the current block is still empty, so the `continue`
drops it), hence the blocks do not partition the subtitle list. -/
theorem claim_C4_counterexample :
    group_subtitles_for_translation [⟨['1'], [], [], [' '], [' ']⟩] 5 500 = [] ∧
    ([⟨['1'], [], [], [' '], [' ']⟩] : List Subtitle) ≠ [] := by
  constructor <;> decide

/-! ## Lemmas and claim theorem: rolling context and failure policy (C7) -/

theorem translate_fold_spec (oracle : Nat → Option (List Char)) :
    ∀ (chunks : List Chunk) (st : TransState),
    (chunks.foldl (translateStep oracle) st).parts =
      st.parts ++ specParts oracle st.idx chunks ∧
    (chunks.foldl (translateStep oracle) st).failed =
      st.failed + specFailed oracle st.idx chunks ∧
    (chunks.foldl (translateStep oracle) st).ctx = specCtx oracle st.idx chunks st.ctx := by
  intro chunks
  induction chunks with
  | nil =>
    intro st
    simp [specParts, specFailed, specCtx]
  | cons ch rest ih =>
    intro st
    rw [List.foldl_cons]
    by_cases hws : (pyStrip ch.main_content).isEmpty = true
    · have hstep : translateStep oracle st ch =
          { st with
            idx := st.idx + 1
            parts := st.parts ++ [ch.main_content]
            completed := st.completed + 1 } := by
        unfold translateStep
        rw [if_pos hws]
      rw [hstep]
      obtain ⟨h1, h2, h3⟩ := ih { st with
        idx := st.idx + 1
        parts := st.parts ++ [ch.main_content]
        completed := st.completed + 1 }
      refine ⟨?_, ?_, ?_⟩
      · rw [h1]
        simp only [specParts, hws, if_true]
        simp
      · rw [h2]
        simp [specFailed, hws]
      · rw [h3]
        simp [specCtx, hws]
    · rw [Bool.not_eq_true] at hws
      cases hor : oracle st.idx with
      | some t =>
        have hstep : translateStep oracle st ch =
            { idx := st.idx + 1
              parts := st.parts ++ [clean_translated_text t]
              completed := st.completed + 1
              failed := st.failed
              ctx := ctxOf (clean_translated_text t) } := by
          unfold translateStep
          rw [if_neg (by simp [hws]), hor]
        rw [hstep]
        obtain ⟨h1, h2, h3⟩ := ih { idx := st.idx + 1
                                    parts := st.parts ++ [clean_translated_text t]
                                    completed := st.completed + 1
                                    failed := st.failed
                                    ctx := ctxOf (clean_translated_text t) }
        refine ⟨?_, ?_, ?_⟩
        · rw [h1]
          simp only [specParts, hws, Bool.false_eq_true, if_false, hor]
          simp
        · rw [h2]
          simp [specFailed, hws, hor]
        · rw [h3]
          simp [specCtx, hws, hor]
      | none =>
        have hstep : translateStep oracle st ch =
            { idx := st.idx + 1
              parts := st.parts ++ [errStr (st.idx + 1) ch.main_content]
              completed := st.completed
              failed := st.failed + 1
              ctx := [] } := by
          unfold translateStep
          rw [if_neg (by simp [hws]), hor]
        rw [hstep]
        obtain ⟨h1, h2, h3⟩ := ih { idx := st.idx + 1
                                    parts := st.parts ++ [errStr (st.idx + 1) ch.main_content]
                                    completed := st.completed
                                    failed := st.failed + 1
                                    ctx := [] }
        refine ⟨?_, ?_, ?_⟩
        · rw [h1]
          simp only [specParts, hws, Bool.false_eq_true, if_false, hor]
          simp
        · rw [h2]
          simp only [specFailed, hws, Bool.false_eq_true, if_false, hor]
          omega
        · rw [h3]
          simp [specCtx, hws, hor]

/-- Claim C7: in `translate_chunks`, a successful chunk stores its
cleaned translation and sets the rolling context to its last 25 words
(the entire text at 25 words or fewer, per `ctxOf`); a failed chunk
stores exactly `[TRANSLATION_ERROR SEGMENT n]\n<original>\n
[/TRANSLATION_ERROR SEGMENT n]` with the 1-based index `n`, increments
the failed count by one, and resets the rolling context to the empty
string. Run-level: the outputs, failed count and final context of
`translate_chunks` are exactly the position-by-position prescriptions
`specParts` / `specFailed` / `specCtx`. -/
theorem claim_C7_rolling_context (chunks : List Chunk) (oracle : Nat → Option (List Char)) :
    ((translate_chunks chunks oracle).parts = specParts oracle 0 chunks ∧
     (translate_chunks chunks oracle).failed = specFailed oracle 0 chunks ∧
     (translate_chunks chunks oracle).ctx = specCtx oracle 0 chunks []) ∧
    (∀ (st : TransState) (ch : Chunk) (t : List Char),
      (pyStrip ch.main_content).isEmpty = false → oracle st.idx = some t →
      translateStep oracle st ch =
        { idx := st.idx + 1
          parts := st.parts ++ [clean_translated_text t]
          completed := st.completed + 1
          failed := st.failed
          ctx := ctxOf (clean_translated_text t) }) ∧
    (∀ (st : TransState) (ch : Chunk),
      (pyStrip ch.main_content).isEmpty = false → oracle st.idx = none →
      translateStep oracle st ch =
        { idx := st.idx + 1
          parts := st.parts ++ [errStr (st.idx + 1) ch.main_content]
          completed := st.completed
          failed := st.failed + 1
          ctx := [] }) := by
  refine ⟨?_, ?_, ?_⟩
  · obtain ⟨h1, h2, h3⟩ := translate_fold_spec oracle chunks ⟨0, [], 0, 0, []⟩
    exact ⟨by simpa using h1, by simpa using h2, by simpa using h3⟩
  · intro st ch t hws hor
    unfold translateStep
    rw [if_neg (by simp [hws]), hor]
  · intro st ch hws hor
    unfold translateStep
    rw [if_neg (by simp [hws]), hor]

/-- Witness for C7 on a concrete two-chunk run: the first chunk succeeds
with translation `Bonjour`, the second fails and stores the error
placeholder for segment 2 while the final context is reset to empty. -/
theorem claim_C7_rolling_context_witness :
    (translate_chunks
        [⟨[], "Hello".data, []⟩, ⟨[], "World".data, []⟩]
        (fun i => if i = 0 then some "Bonjour".data else none)).parts =
      specParts (fun i => if i = 0 then some "Bonjour".data else none) 0
        [⟨[], "Hello".data, []⟩, ⟨[], "World".data, []⟩] ∧
    (translate_chunks
        [⟨[], "Hello".data, []⟩, ⟨[], "World".data, []⟩]
        (fun i => if i = 0 then some "Bonjour".data else none)).failed =
      specFailed (fun i => if i = 0 then some "Bonjour".data else none) 0
        [⟨[], "Hello".data, []⟩, ⟨[], "World".data, []⟩] ∧
    (translate_chunks
        [⟨[], "Hello".data, []⟩, ⟨[], "World".data, []⟩]
        (fun i => if i = 0 then some "Bonjour".data else none)).ctx =
      specCtx (fun i => if i = 0 then some "Bonjour".data else none) 0
        [⟨[], "Hello".data, []⟩, ⟨[], "World".data, []⟩] [] :=
  (claim_C7_rolling_context
    [⟨[], "Hello".data, []⟩, ⟨[], "World".data, []⟩]
    (fun i => if i = 0 then some "Bonjour".data else none)).1

/-! ## Lemmas and claim theorem: progress after interrupt (C8) -/

theorem epubPhase2Loop_frozen (flag : Nat → Bool) (n j fuel : Nat) (s : EpubJobRecord)
    (h : flag s.clock = true) :
    (epubPhase2Loop flag n j fuel s).progress = s.progress ∧
    s.clock ≤ (epubPhase2Loop flag n j fuel s).clock := by
  cases fuel with
  | zero => simp [epubPhase2Loop]
  | succ f =>
    refine ⟨?_, ?_⟩ <;> simp [epubPhase2Loop, h]

/-- Claim C8 (amended): once the interrupt flag is observed set (and the
flag, once set, stays set), the remainder of the EPUB job — the rest of
the phase-2 loop, the unconditional end-of-phase progress emission of 100,
and finalisation — leaves the recorded progress unchanged, because
`_update_translation_progress_callback` drops updates while the flag is
set, and the run ends `interrupted`; a never-interrupted run ends
`completed` with progress 100. The claim's stronger clause "progress
reaches 100 exactly on terminal success" is false: see the
counterexample, where an interrupted run also records 100. -/
theorem claim_C8_progress_interrupt (flag : Nat → Bool) (n : Nat) (s : EpubJobRecord)
    (hmono : ∀ t t', t ≤ t' → flag t = true → flag t' = true)
    (hobs : flag s.clock = true) :
    (finalizeJob flag (epubPhase2 flag n s)).1 = true ∧
    (finalizeJob flag (epubPhase2 flag n s)).2.progress = s.progress ∧
    (epubRun (fun _ => false) n).1 = false ∧
    (epubRun (fun _ => false) n).2.progress = 100 := by
  obtain ⟨hp, hc⟩ := epubPhase2Loop_frozen flag n 0 n s hobs
  have hfL : flag (epubPhase2Loop flag n 0 n s).clock = true := hmono _ _ hc hobs
  have h2 : epubPhase2 flag n s =
      { progress := (epubPhase2Loop flag n 0 n s).progress
        clock := (epubPhase2Loop flag n 0 n s).clock + 1 } := by
    simp [epubPhase2, progressCallback, hfL]
  have hf2 : flag ((epubPhase2Loop flag n 0 n s).clock + 1) = true :=
    hmono _ _ (Nat.le_succ _) hfL
  refine ⟨?_, ?_, ?_, ?_⟩
  · rw [h2]
    simp [finalizeJob, hf2]
  · rw [h2]
    simp [finalizeJob, hf2, hp]
  · simp [epubRun, epubPhase2, finalizeJob, progressCallback]
  · simp [epubRun, epubPhase2, finalizeJob, progressCallback]

/-- Witness for C8: a flag that is set from the start freezes progress at
its current value (5) through the rest of the run and ends interrupted,
while the never-set flag ends completed at 100. -/
theorem claim_C8_progress_interrupt_witness :
    (finalizeJob (fun _ => true) (epubPhase2 (fun _ => true) 2 ⟨5, 0⟩)).1 = true ∧
    (finalizeJob (fun _ => true) (epubPhase2 (fun _ => true) 2 ⟨5, 0⟩)).2.progress = 5 ∧
    (epubRun (fun _ => false) 2).1 = false ∧
    (epubRun (fun _ => false) 2).2.progress = 100 :=
  claim_C8_progress_interrupt (fun _ => true) 2 ⟨5, 0⟩ (fun _ _ _ h => h) rfl

/-- Counterexample to C8 as stated: with one job and an interrupt raised
after the job's progress emission (flag set from clock 2 on), the run ends
`interrupted` yet its recorded progress is 100 — because the loop emits
`10 + ((j+1)/n)*90 = 100` *before* translating the last job, so an
interrupt during that job leaves an interrupted run showing 100. Progress
therefore does **not** reach 100 exactly on terminal success. -/
theorem claim_C8_counterexample :
    (epubRun (fun t => decide (2 ≤ t)) 1).1 = true ∧
    (epubRun (fun t => decide (2 ≤ t)) 1).2.progress = 100 := by
  norm_num [epubRun, epubPhase2, epubPhase2Loop, finalizeJob, progressCallback]

/-! ## Claim theorem: echo-discard rule (C6) -/

/-- Claim C6 (amended): for a multi-character chunk and a non-empty raw
response in which the output markers are absent (`extract_translation`
fails), `generate_translation_request` returns `none` when the raw
response contains the original main content verbatim (prompt echo), and
otherwise falls back to the cleaned, stripped raw response. The claim's
final clause — "there is no input for which an echoing response is
accepted" — is false: when the markers are present the echo check is
skipped entirely, so a response that both echoes the input and wraps it
in markers is accepted (see the counterexample). -/
theorem claim_C6_echo_discard (main raw : List Char)
    (hlen : 1 < (pyStrip main).length) (hne : raw.isEmpty = false)
    (hmk : extract_translation raw = none) :
    (containsSub raw main = true → generate_translation_request main (some raw) = none) ∧
    (containsSub raw main = false →
      generate_translation_request main (some raw) =
        some (clean_translated_text (pyStrip raw))) := by
  constructor <;> intro h <;>
    simp [generate_translation_request, hne, hmk, h, Nat.not_le.mpr hlen]

/-- Witness for C6: the markers-absent echo `"I Hello. you"` of main
content `"Hello."` is discarded, while the markers-absent non-echo
`"Salut!"` is accepted as the cleaned stripped raw fallback. -/
theorem claim_C6_echo_discard_witness :
    generate_translation_request "Hello.".data (some "I Hello. you".data) = none ∧
    generate_translation_request "Hello.".data (some "Salut!".data) =
      some (clean_translated_text (pyStrip "Salut!".data)) :=
  ⟨(claim_C6_echo_discard "Hello.".data "I Hello. you".data (by decide) (by decide)
      (by decide)).1 (by decide),
   (claim_C6_echo_discard "Hello.".data "Salut!".data (by decide) (by decide)
      (by decide)).2 (by decide)⟩

/-- Counterexample to C6 as stated: the raw response
`"<TRANSLATED>Hello world.</TRANSLATED>"` contains the original main
content `"Hello world."` verbatim — it echoes the prompt — yet because the
markers are present, `generate_translation_request` accepts it and returns
the extracted text. -/
theorem claim_C6_counterexample :
    containsSub "<TRANSLATED>Hello world.</TRANSLATED>".data "Hello world.".data = true ∧
    generate_translation_request "Hello world.".data
        (some "<TRANSLATED>Hello world.</TRANSLATED>".data) =
      some "Hello world.".data := by
  decide

/-! ## Claim theorem: EPUB placeholder validation gate (C3) -/

/-- Claim C3: the validation gate the claim describes does not exist in
the code. `TagPreserver` defines no `validate_placeholders` and no
`fix_mutated_placeholders` (src/src/core/epub_processor.py lines 22-82 —
`src/test_placeholder_validation.py` calls both and fails with
`AttributeError`), and EPUB phase 2 (lines 592-606, embedded as
`epub_job_finalize`) stores the joined — and, when the tag map is
non-empty, tag-restored — text unconditionally: whatever the placeholder
map and whether or not any placeholder survives in the translated parts,
the job is counted failed only when some part carries the literal
`[TRANSLATION_ERROR` marker, and the stored text is exactly the
joined/restored text with no validation applied. -/
theorem claim_C3_validation_gate (parts : List (List Char)) (tagMap : List (Nat × List Char))
    (h : parts.all (fun p => !containsSub p "[TRANSLATION_ERROR".data) = true) :
    (epub_job_finalize parts tagMap).2 = false ∧
    (epub_job_finalize parts tagMap).1 =
      (if !tagMap.isEmpty then restore_tags (joinWith ['\n'] parts) tagMap
       else joinWith ['\n'] parts) := by
  constructor
  · show parts.any (fun p => containsSub p "[TRANSLATION_ERROR".data) = false
    rw [List.any_eq_false]
    intro p hp
    have h2 := List.all_eq_true.mp h p hp
    simp at h2 ⊢
    exact h2
  · rfl

/-- Witness for C3: a job whose single translated part `"Hello"` lost the
placeholder `⟦TAG0⟧` of its non-empty tag map `{0 ↦ "<i>"}` is still
stored as-is (`restore_tags` finds nothing to restore) and counted
successful. -/
theorem claim_C3_validation_gate_witness :
    (epub_job_finalize ["Hello".data] [(0, "<i>".data)]).2 = false ∧
    (epub_job_finalize ["Hello".data] [(0, "<i>".data)]).1 =
      (if !([((0 : Nat), "<i>".data)].isEmpty) then
        restore_tags (joinWith ['\n'] ["Hello".data]) [(0, "<i>".data)]
       else joinWith ['\n'] ["Hello".data]) :=
  claim_C3_validation_gate ["Hello".data] [(0, "<i>".data)] (by decide)

/-! ## Lemmas: `splitOnSep` and `joinWith` (towards the SRT round trip, C5) -/

theorem consPiece_consPiece (a b : List Char) (L : List (List Char)) :
    consPiece a (consPiece b L) = consPiece (a ++ b) L := by
  cases L <;> simp [consPiece]

theorem splitF_fuelIrrel : ∀ (f1 f2 : Nat) (s sep acc : List Char),
    s.length ≤ f1 → s.length ≤ f2 → splitF f1 s sep acc = splitF f2 s sep acc := by
  intro f1
  induction f1 with
  | zero =>
    intro f2 s sep acc h1 _
    have : s = [] := List.length_eq_zero.mp (Nat.le_zero.mp h1)
    subst this
    cases f2 <;> simp [splitF]
  | succ f ih =>
    intro f2 s sep acc h1 h2
    match s with
    | [] => cases f2 <;> simp [splitF]
    | c :: rest =>
      have hr : rest.length ≤ f := by simp only [List.length_cons] at h1; omega
      match f2, h2 with
      | 0, h2 => simp only [List.length_cons] at h2; omega
      | g + 1, h2 =>
        have hrg : rest.length ≤ g := by simp only [List.length_cons] at h2; omega
        simp only [splitF]
        by_cases hc : (!sep.isEmpty && sep.isPrefixOf (c :: rest)) = true
        · simp only [hc, if_true]
          have hsep1 : 1 ≤ sep.length := by
            cases sep with
            | nil => simp at hc
            | cons a l => simp
          have hlen : ((c :: rest).drop sep.length).length ≤ f := by
            simp only [List.length_drop, List.length_cons]; omega
          have hleng : ((c :: rest).drop sep.length).length ≤ g := by
            simp only [List.length_drop, List.length_cons]; omega
          rw [ih g ((c :: rest).drop sep.length) sep [] hlen hleng]
        · simp only [hc, Bool.false_eq_true, if_false]
          rw [ih g rest sep (c :: acc) hr hrg]

theorem splitF_acc : ∀ (f : Nat) (s sep acc : List Char),
    splitF f s sep acc = consPiece acc.reverse (splitF f s sep []) := by
  intro f
  induction f with
  | zero => intro s sep acc; simp [splitF, consPiece]
  | succ f ih =>
    intro s sep acc
    match s with
    | [] => simp [splitF, consPiece]
    | c :: rest =>
      simp only [splitF]
      by_cases hc : (!sep.isEmpty && sep.isPrefixOf (c :: rest)) = true
      · simp [hc, consPiece]
      · simp only [hc, Bool.false_eq_true, if_false]
        rw [ih rest sep (c :: acc), ih rest sep [c], consPiece_consPiece]
        simp

theorem splitF_ne_nil : ∀ (f : Nat) (s sep acc : List Char), splitF f s sep acc ≠ [] := by
  intro f
  induction f with
  | zero => intro s sep acc; simp [splitF]
  | succ f ih =>
    intro s sep acc
    match s with
    | [] => simp [splitF]
    | c :: rest =>
      simp only [splitF]
      by_cases hc : (!sep.isEmpty && sep.isPrefixOf (c :: rest)) = true
      · simp [hc]
      · simp only [hc, Bool.false_eq_true, if_false]
        exact ih rest sep (c :: acc)

theorem splitOnSep_ne_nil (s sep : List Char) : splitOnSep s sep ≠ [] :=
  splitF_ne_nil s.length s sep []

theorem splitOnSep_cons_hit {sep : List Char} (c : Char) (rest : List Char)
    (hsep : sep ≠ []) (hpre : sep.isPrefixOf (c :: rest) = true) :
    splitOnSep (c :: rest) sep = [] :: splitOnSep ((c :: rest).drop sep.length) sep := by
  have hcond : (!sep.isEmpty && sep.isPrefixOf (c :: rest)) = true := by simp [hpre, hsep]
  have hsep1 : 1 ≤ sep.length := listLenPos hsep
  simp only [splitOnSep, List.length_cons, splitF, hcond, if_true, List.reverse_nil]
  congr 1
  apply splitF_fuelIrrel
  · simp only [List.length_drop, List.length_cons]; omega
  · exact le_refl _

theorem splitOnSep_cons_miss {sep : List Char} (c : Char) (rest : List Char)
    (hpre : sep.isPrefixOf (c :: rest) = false) :
    splitOnSep (c :: rest) sep = consPiece [c] (splitOnSep rest sep) := by
  have hcond : (!sep.isEmpty && sep.isPrefixOf (c :: rest)) = false := by simp [hpre]
  simp only [splitOnSep, List.length_cons, splitF, hcond, Bool.false_eq_true, if_false]
  have := splitF_acc rest.length rest sep [c]
  simpa using this

theorem splitOnSep_of_noOcc {s sep : List Char} (h : NoOcc s sep) :
    splitOnSep s sep = [s] := by
  induction s with
  | nil => rfl
  | cons c rest ih =>
    rw [splitOnSep_cons_miss c rest (h _ (List.suffix_refl _))]
    rw [ih (fun t ht => h t (ht.trans (List.suffix_cons c rest)))]
    simp [consPiece]

theorem joinWith_cons {sep x : List Char} {L : List (List Char)} (h : L ≠ []) :
    joinWith sep (x :: L) = x ++ sep ++ joinWith sep L := by
  cases L with
  | nil => exact absurd rfl h
  | cons y ys => rfl

theorem joinWith_splitF : ∀ (f : Nat) (s sep acc : List Char), s.length ≤ f → sep ≠ [] →
    joinWith sep (splitF f s sep acc) = acc.reverse ++ s := by
  intro f
  induction f with
  | zero =>
    intro s sep acc h1 _
    simp [splitF, joinWith]
  | succ f ih =>
    intro s sep acc h1 hsep
    match s with
    | [] => simp [splitF, joinWith]
    | c :: rest =>
      simp only [splitF]
      by_cases hc : (!sep.isEmpty && sep.isPrefixOf (c :: rest)) = true
      · simp only [hc, if_true]
        rw [joinWith_cons (splitF_ne_nil _ _ _ _)]
        have hpre : sep.isPrefixOf (c :: rest) = true := by
          simp only [Bool.and_eq_true] at hc
          exact hc.2
        obtain ⟨t, ht⟩ := List.isPrefixOf_iff_prefix.mp hpre
        have hdrop : (c :: rest).drop sep.length = t := by
          rw [← ht]
          exact List.drop_left sep t
        have hlen2 : t.length ≤ f := by
          have hlt := congrArg List.length ht
          have hsep1 : 1 ≤ sep.length := listLenPos hsep
          simp only [List.length_append, List.length_cons] at hlt h1
          omega
        rw [hdrop, ih t sep [] hlen2 hsep]
        rw [← ht]
        simp
      · simp only [hc, Bool.false_eq_true, if_false]
        have hr : rest.length ≤ f := by simp only [List.length_cons] at h1; omega
        rw [ih rest sep (c :: acc) hr hsep]
        simp

theorem joinWith_splitOnSep (s sep : List Char) (hsep : sep ≠ []) :
    joinWith sep (splitOnSep s sep) = s := by
  have := joinWith_splitF s.length s sep [] (le_refl _) hsep
  simpa using this

theorem noOcc_of_noHit {pre sep rest : List Char} (hsep : sep ≠ [])
    (hnh : NoHit pre sep rest) : NoOcc pre sep := by
  intro t ht
  obtain ⟨a, ha⟩ := ht
  cases t with
  | nil =>
    cases sep with
    | nil => exact absurd rfl hsep
    | cons d s' => simp [List.isPrefixOf]
  | cons x t' =>
    have hfull := hnh a (x :: t') ha.symm (by simp)
    by_contra hcon
    rw [Bool.not_eq_false] at hcon
    have hext : sep.isPrefixOf ((x :: t') ++ rest) = true := by
      rw [List.isPrefixOf_iff_prefix] at hcon ⊢
      exact hcon.trans (List.prefix_append _ _)
    rw [hext] at hfull
    exact absurd hfull (by simp)

theorem noHit_nil_pre (sep rest : List Char) : NoHit [] sep rest := by
  intro a1 a2 heq hne
  exact absurd (List.append_eq_nil.mp heq.symm).2 hne

theorem splitOnSep_append_sep : ∀ {pre : List Char} {sep rest : List Char}, sep ≠ [] →
    NoHit pre sep (sep ++ rest) →
    splitOnSep (pre ++ sep ++ rest) sep = pre :: splitOnSep rest sep := by
  intro pre
  induction pre with
  | nil =>
    intro sep rest hsep _
    match sep, hsep with
    | d :: sep', _ =>
      have hpre : (d :: sep').isPrefixOf ((d :: sep') ++ rest) = true :=
        isPrefixOf_append_self (d :: sep') rest
      have hshape : (d :: sep') ++ rest = d :: (sep' ++ rest) := rfl
      simp only [List.nil_append]
      rw [hshape] at hpre ⊢
      rw [splitOnSep_cons_hit d (sep' ++ rest) (by simp) hpre]
      congr 1
      have hdrop : (d :: (sep' ++ rest)).drop (d :: sep').length = rest := by
        rw [← hshape]
        exact List.drop_left (d :: sep') rest
      rw [hdrop]
  | cons c pre' ih =>
    intro sep rest hsep h
    have hmiss : sep.isPrefixOf (c :: (pre' ++ (sep ++ rest))) = false := by
      have := h [] (c :: pre') rfl (by simp)
      simpa using this
    have hshape : (c :: pre') ++ sep ++ rest = c :: (pre' ++ (sep ++ rest)) := by
      simp
    rw [hshape, splitOnSep_cons_miss c (pre' ++ (sep ++ rest)) hmiss]
    have hrw : pre' ++ (sep ++ rest) = pre' ++ sep ++ rest := by simp
    rw [hrw, ih hsep (fun a1 a2 heq hne => h (c :: a1) a2 (by simp [heq]) hne)]
    simp [consPiece]

theorem splitF_pieces_noOcc : ∀ (f : Nat) (s sep acc : List Char), s.length ≤ f →
    sep ≠ [] → NoHit acc.reverse sep s →
    ∀ p ∈ splitF f s sep acc, NoOcc p sep := by
  intro f
  induction f with
  | zero =>
    intro s sep acc h1 hsep hnh p hp
    have hs : s = [] := List.length_eq_zero.mp (Nat.le_zero.mp h1)
    subst hs
    simp only [splitF, List.append_nil, List.mem_singleton] at hp
    subst hp
    exact noOcc_of_noHit hsep hnh
  | succ f ih =>
    intro s sep acc h1 hsep hnh p hp
    match s with
    | [] =>
      simp only [splitF, List.mem_singleton] at hp
      subst hp
      exact noOcc_of_noHit hsep hnh
    | c :: rest =>
      have hr : rest.length ≤ f := by simp only [List.length_cons] at h1; omega
      simp only [splitF] at hp
      by_cases hc : (!sep.isEmpty && sep.isPrefixOf (c :: rest)) = true
      · simp only [hc, if_true, List.mem_cons] at hp
        rcases hp with hp | hp
        · subst hp
          exact noOcc_of_noHit hsep hnh
        · have hb : ((c :: rest).drop sep.length).length ≤ f := by
            simp only [List.length_drop, List.length_cons]
            have : 1 ≤ sep.length := listLenPos hsep
            omega
          exact ih ((c :: rest).drop sep.length) sep [] hb hsep
            (by simpa using noHit_nil_pre sep ((c :: rest).drop sep.length)) p hp
      · simp only [hc, Bool.false_eq_true, if_false] at hp
        have hmiss : sep.isPrefixOf (c :: rest) = false := by
          rcases Bool.eq_false_or_eq_true (sep.isPrefixOf (c :: rest)) with h0 | h0
          · exfalso
            apply hc
            simp [h0, hsep]
          · exact h0
        refine ih rest sep (c :: acc) hr hsep ?_ p hp
        intro a1 a2 heq hne
        rcases List.eq_nil_or_concat a2 with h2 | ⟨a2', x, h2⟩
        · exact absurd h2 hne
        · subst h2
          have h3 : (a1 ++ a2') ++ [x] = acc.reverse ++ [c] := by
            simpa [List.append_assoc] using heq.symm
          obtain ⟨h4, h5⟩ := List.append_inj' h3 rfl
          have hx : x = c := by
            injection h5
          subst hx
          rcases a2' with _ | ⟨y, a2''⟩
          · simpa using hmiss
          · have := hnh a1 (y :: a2'') h4.symm (by simp)
            simpa [List.append_assoc] using this

theorem splitOnSep_pieces_noOcc (s : List Char) {sep : List Char} (hsep : sep ≠ []) :
    ∀ p ∈ splitOnSep s sep, NoOcc p sep := by
  apply splitF_pieces_noOcc s.length s sep [] (le_refl _) hsep
  simpa using noHit_nil_pre sep s

theorem mem_joinWith {sep : List Char} : ∀ {L : List (List Char)} {p : List Char},
    p ∈ L → ∀ {x : Char}, x ∈ p → x ∈ joinWith sep L := by
  intro L
  induction L with
  | nil => intro p hp; simp at hp
  | cons q L' ih =>
    intro p hp x hx
    rcases List.mem_cons.mp hp with h | h
    · subst h
      cases L' with
      | nil => simpa [joinWith] using hx
      | cons r L'' =>
        show x ∈ p ++ sep ++ joinWith sep (r :: L'')
        simp only [List.mem_append]
        exact Or.inl (Or.inl hx)
    · cases L' with
      | nil => simp at h
      | cons r L'' =>
        show x ∈ q ++ sep ++ joinWith sep (r :: L'')
        simp only [List.mem_append]
        exact Or.inr (ih h hx)

theorem noOcc_of_suffix {s t pat : List Char} (hst : t <:+ s) (h : NoOcc s pat) :
    NoOcc t pat := fun u hu => h u (hu.trans hst)

theorem noOcc_of_prefix {s t pat : List Char} (hst : t <+: s) (h : NoOcc s pat) :
    NoOcc t pat := by
  intro u hu
  obtain ⟨q, hq⟩ := hst
  obtain ⟨a, ha⟩ := hu
  by_contra hcon
  rw [Bool.not_eq_false] at hcon
  have hsuf : u ++ q <:+ s := ⟨a, by rw [← hq, ← ha]; simp [List.append_assoc]⟩
  have hocc := h (u ++ q) hsuf
  have hpre2 : pat.isPrefixOf (u ++ q) = true := by
    rw [List.isPrefixOf_iff_prefix] at hcon ⊢
    exact hcon.trans (List.prefix_append _ _)
  rw [hpre2] at hocc
  exact absurd hocc (by simp)

theorem pyStripRight_prefix_self (s : List Char) : pyStripRight s <+: s := by
  unfold pyStripRight
  have h1 : s.reverse.dropWhile pyWs <:+ s.reverse := List.dropWhile_suffix pyWs
  have h2 := h1.reverse
  rwa [List.reverse_reverse] at h2

theorem noOcc_pyStrip {s pat : List Char} (h : NoOcc s pat) : NoOcc (pyStrip s) pat := by
  unfold pyStrip
  exact noOcc_of_prefix (pyStripRight_prefix_self _)
    (noOcc_of_suffix (List.dropWhile_suffix pyWs) h)

theorem mem_of_mem_pyStrip {x : Char} {s : List Char} (h : x ∈ pyStrip s) : x ∈ s := by
  unfold pyStrip pyStripRight pyStripLeft at h
  rw [List.mem_reverse] at h
  have h2 : x ∈ (s.dropWhile pyWs).reverse := (List.dropWhile_sublist pyWs).subset h
  rw [List.mem_reverse] at h2
  exact (List.dropWhile_sublist pyWs).subset h2

theorem head_dropWhile_not {p : Char → Bool} : ∀ (l : List Char) {c : Char},
    (l.dropWhile p).head? = some c → p c = false := by
  intro l
  induction l with
  | nil => intro c h; simp [List.dropWhile] at h
  | cons a l' ih =>
    intro c h
    rw [List.dropWhile_cons] at h
    by_cases hp : p a = true
    · rw [if_pos hp] at h
      exact ih h
    · rw [if_neg hp] at h
      simp only [List.head?_cons, Option.some.injEq] at h
      subst h
      exact Bool.eq_false_iff.mpr hp

theorem head?_of_prefix {t s : List Char} (h : t <+: s) (hne : t ≠ []) :
    t.head? = s.head? := by
  obtain ⟨q, hq⟩ := h
  cases t with
  | nil => exact absurd rfl hne
  | cons a t' => rw [← hq]; rfl

theorem getLast?_of_suffix {t s : List Char} (h : t <:+ s) (hne : t ≠ []) :
    t.getLast? = s.getLast? := by
  obtain ⟨a, ha⟩ := h
  rw [← ha, List.getLast?_append_of_ne_nil a hne]

theorem pyStrip_head_not_ws {s : List Char} {c : Char}
    (h : (pyStrip s).head? = some c) : pyWs c = false := by
  have hne : pyStrip s ≠ [] := by
    intro h0
    rw [h0] at h
    simp at h
  have heq := head?_of_prefix (pyStripRight_prefix_self (pyStripLeft s)) hne
  rw [show pyStripRight (pyStripLeft s) = pyStrip s from rfl, h] at heq
  exact head_dropWhile_not _ heq.symm

theorem pyStrip_last_not_ws {s : List Char} {c : Char}
    (h : (pyStrip s).getLast? = some c) : pyWs c = false := by
  unfold pyStrip pyStripRight at h
  rw [List.getLast?_reverse] at h
  exact head_dropWhile_not _ h

theorem pyStrip_eq_self {s : List Char}
    (hh : ∀ c, s.head? = some c → pyWs c = false)
    (hl : ∀ c, s.getLast? = some c → pyWs c = false) :
    pyStrip s = s := by
  unfold pyStrip pyStripLeft pyStripRight
  have h1 : s.dropWhile pyWs = s := by
    cases s with
    | nil => rfl
    | cons a s' =>
      rw [List.dropWhile_cons, if_neg]
      rw [hh a rfl]
      simp
  rw [h1]
  have h2 : s.reverse.dropWhile pyWs = s.reverse := by
    cases hrev : s.reverse with
    | nil => simp
    | cons a s' =>
      have hlast : s.getLast? = some a := by
        rw [← List.head?_reverse, hrev]
        rfl
      rw [List.dropWhile_cons, if_neg]
      rw [hl a hlast]
      simp
  rw [h2, List.reverse_reverse]

theorem pyStripRight_append_ws {s : List Char} {w : Char} (hw : pyWs w = true) :
    pyStripRight (s ++ [w]) = pyStripRight s := by
  unfold pyStripRight
  rw [List.reverse_append]
  simp only [List.reverse_singleton, List.singleton_append, List.dropWhile_cons, hw, if_true]

theorem pyStrip_append_ws {s : List Char} {w : Char} (hw : pyWs w = true) :
    pyStrip (s ++ [w]) = pyStrip s := by
  unfold pyStrip pyStripLeft
  rw [List.dropWhile_append]
  by_cases h0 : (s.dropWhile pyWs).isEmpty = true
  · rw [if_pos h0]
    have h1 : List.dropWhile pyWs [w] = [] := by
      simp [List.dropWhile_cons, hw]
    rw [h1]
    have h2 : s.dropWhile pyWs = [] := by
      rwa [List.isEmpty_iff] at h0
    rw [h2]
  · rw [if_neg h0]
    exact pyStripRight_append_ws hw

theorem pyIsDigit_facts {n : List Char} (h : pyIsDigit n = true) :
    n ≠ [] ∧ ∀ c ∈ n, pyIsDigitChar c = true := by
  simp only [pyIsDigit, Bool.and_eq_true, Bool.not_eq_true', List.all_eq_true] at h
  refine ⟨?_, h.2⟩
  intro h0
  rw [h0] at h
  simp at h

theorem tcCheck_facts {t : List Char} (h : tcCheck t = true) :
    t.length = 12 ∧ (∀ c ∈ t, pyIsDigitChar c = true ∨ c = ':' ∨ c = ',') ∧
    (∀ c, t.head? = some c → pyIsDigitChar c = true) := by
  rcases t with _ | ⟨a, _ | ⟨b, _ | ⟨c1, _ | ⟨d, _ | ⟨e, _ | ⟨c2, _ | ⟨f, _ | ⟨g, _ | ⟨c3, _ | ⟨h1, _ | ⟨i, _ | ⟨j, _ | ⟨x, t⟩⟩⟩⟩⟩⟩⟩⟩⟩⟩⟩⟩⟩
  all_goals try (dsimp only [tcCheck] at h; exact absurd h Bool.false_ne_true)
  simp only [tcCheck, Bool.and_eq_true, decide_eq_true_eq] at h
  obtain ⟨⟨⟨⟨⟨⟨⟨⟨⟨⟨⟨ha, hb⟩, hc1⟩, hd⟩, he⟩, hc2⟩, hf⟩, hg⟩, hc3⟩, hh1⟩, hi⟩, hj⟩ := h
  subst hc1 hc2 hc3
  refine ⟨rfl, ?_, ?_⟩
  · intro c hc
    simp only [List.mem_cons, List.not_mem_nil, or_false] at hc
    rcases hc with rfl | rfl | rfl | rfl | rfl | rfl | rfl | rfl | rfl | rfl | rfl | rfl <;>
      simp [ha, hb, hd, he, hf, hg, hh1, hi, hj]
  · intro c hc
    simp only [List.head?_cons, Option.some.injEq] at hc
    subst hc
    exact ha

theorem matchTimecode_some {l st en : List Char} (h : matchTimecode l = some (st, en)) :
    tcCheck st = true ∧ tcCheck en = true ∧ st = l.take 12 := by
  unfold matchTimecode at h
  by_cases h1 : tcCheck (l.take 12) = true
  · rw [if_pos h1] at h
    split at h
    · rename_i r3 heq
      by_cases h2 : tcCheck ((r3.dropWhile pyWs).take 12) = true
      · rw [if_pos h2] at h
        simp only [Option.some.injEq, Prod.mk.injEq] at h
        obtain ⟨hst, hen⟩ := h
        subst hst
        subst hen
        exact ⟨h1, h2, rfl⟩
      · rw [if_neg h2] at h
        exact absurd h (by simp)
    · exact absurd h (by simp)
  · rw [if_neg h1] at h
    exact absurd h (by simp)

theorem not_mem_replaceAll_single {s : List Char} {c d : Char} (hcd : c ≠ d) :
    c ∉ replaceAll s [c] [d] := by
  induction s with
  | nil => simp [replaceAll, replF]
  | cons a rest ih =>
    by_cases ha : a = c
    · subst ha
      have hpre : List.isPrefixOf [a] (a :: rest) = true := by
        simp [List.isPrefixOf]
      rw [replaceAll_cons_hit a rest [d] (by simp) hpre]
      intro hmem
      simp only [List.length_cons, List.length_nil, List.drop_succ_cons, List.drop_zero,
        List.singleton_append, List.mem_cons] at hmem
      rcases hmem with h | h
      · exact hcd h
      · exact ih h
    · have hpre : List.isPrefixOf [c] (a :: rest) = false := by
        have hne : (c == a) = false := by
          by_cases hc : c = a
          · exact absurd hc.symm ha
          · simp [hc]
        simp [List.isPrefixOf, hne]
      rw [replaceAll_cons_miss a rest [d] hpre]
      intro hmem
      rcases List.mem_cons.mp hmem with h | h
      · exact ha h.symm
      · exact ih h

theorem matchTimecode_build {st en : List Char} (hst : tcCheck st = true)
    (hen : tcCheck en = true) :
    matchTimecode (st ++ " --> ".data ++ en) = some (st, en) := by
  obtain ⟨hlst, _, _⟩ := tcCheck_facts hst
  obtain ⟨hlen, _, hhead_en⟩ := tcCheck_facts hen
  unfold matchTimecode
  have htake : (st ++ " --> ".data ++ en).take 12 = st := by
    rw [← hlst, List.append_assoc]
    exact List.take_left st _
  have hdrop : (st ++ " --> ".data ++ en).drop 12 = " --> ".data ++ en := by
    rw [← hlst, List.append_assoc]
    exact List.drop_left st _
  rw [htake, if_pos hst, hdrop]
  have hstr : " --> ".data = [' ', '-', '-', '>', ' '] := by decide
  rw [hstr]
  have hws_sp : pyWs ' ' = true := by decide
  have hws_dash : pyWs '-' = false := by decide
  obtain ⟨e, en', hen'⟩ : ∃ e en', en = e :: en' := by
    cases en with
    | nil => simp at hlen
    | cons e en' => exact ⟨e, en', rfl⟩
  have hwse : pyWs e = false := digit_not_ws (hhead_en e (by rw [hen']; rfl))
  have hdw : List.dropWhile pyWs ([' ', '-', '-', '>', ' '] ++ en) =
      '-' :: '-' :: '>' :: (' ' :: en) := by
    simp only [List.cons_append, List.nil_append, List.dropWhile_cons, hws_sp, if_true,
      hws_dash, Bool.false_eq_true, if_false]
  rw [hdw]
  have hdw2 : List.dropWhile pyWs (' ' :: en) = en := by
    rw [hen']
    simp only [List.dropWhile_cons, hws_sp, if_true, hwse, Bool.false_eq_true, if_false]
  have htk : en.take 12 = en := by
    rw [← hlen]
    exact List.take_length en
  split
  · rename_i r3 heq
    have hr3 : r3 = ' ' :: en := by
      injection heq with _ h₁
      injection h₁ with _ h₂
      injection h₂ with _ h₃
      exact h₃.symm
    subst hr3
    rw [hdw2, htk, if_pos hen]
  · rename_i hne
    exact absurd rfl (hne (' ' :: en))

theorem not_mem_of_noOcc {p : List Char} {c : Char} (h : NoOcc p [c]) : c ∉ p := by
  intro hmem
  obtain ⟨s, t, hst⟩ := List.append_of_mem hmem
  have hsuf : c :: t <:+ p := ⟨s, hst.symm⟩
  have hpre := h (c :: t) hsuf
  simp [List.isPrefixOf] at hpre

theorem parseBlock_wf {block : List Char} {sub : Subtitle}
    (hp : parseBlock block = some sub)
    (hno : NoOcc block ['\n', '\n'])
    (hcr : '\r' ∉ block) :
    SubtitleWF sub := by
  simp only [parseBlock] at hp
  by_cases hbe : (pyStrip block).isEmpty = true
  · rw [if_pos hbe] at hp
    exact absurd hp (by simp)
  rw [if_neg hbe] at hp
  rcases hlines : splitOnSep (pyStrip block) ['\n'] with _ | ⟨l0, _ | ⟨l1, rest⟩⟩
  · rw [hlines] at hp
    simp at hp
  · rw [hlines] at hp
    simp at hp
  rw [hlines] at hp
  by_cases hl3 : (l0 :: l1 :: rest).length < 3
  · rw [if_pos hl3] at hp
    exact absurd hp (by simp)
  rw [if_neg hl3] at hp
  dsimp only at hp
  by_cases hdig : pyIsDigit l0 = true
  case neg =>
    rw [if_pos (by simp [hdig])] at hp
    exact absurd hp (by simp)
  rw [if_neg (by simp [hdig])] at hp
  cases hmt : matchTimecode l1 with
  | none =>
    rw [hmt] at hp
    exact absurd hp (by simp)
  | some pr =>
    obtain ⟨st, en⟩ := pr
    rw [hmt] at hp
    dsimp only at hp
    have hrest_ne : rest ≠ [] := by
      intro h0
      subst h0
      simp at hl3
    obtain ⟨r0, rest', rfl⟩ : ∃ r0 rest', rest = r0 :: rest' := by
      cases rest with
      | nil => exact absurd rfl hrest_ne
      | cons r0 rest' => exact ⟨r0, rest', rfl⟩
    have hsub : sub = ⟨l0, st, en, joinWith ['\n'] (r0 :: rest'),
        joinWith ['\n'] (r0 :: rest')⟩ := by
      injection hp with hp
      exact hp.symm
    subst hsub
    have hbne : pyStrip block ≠ [] := by
      intro h0
      rw [h0] at hbe
      exact hbe rfl
    have hnob : NoOcc (pyStrip block) ['\n', '\n'] := noOcc_pyStrip hno
    have hjoin : joinWith ['\n'] (l0 :: l1 :: r0 :: rest') = pyStrip block := by
      rw [← hlines]
      exact joinWith_splitOnSep _ _ (by simp)
    have hjoin2 : pyStrip block =
        l0 ++ ['\n'] ++ (l1 ++ ['\n'] ++ joinWith ['\n'] (r0 :: rest')) := by
      rw [← hjoin, joinWith_cons (by simp), joinWith_cons (by simp)]
    have hr0ne : r0 ≠ [] := by
      intro h0
      subst h0
      cases rest' with
      | nil =>
        have hshape : l0 ++ ['\n'] ++ (l1 ++ ['\n'] ++ joinWith ['\n'] [([] : List Char)]) =
            (l0 ++ ['\n'] ++ l1) ++ ['\n'] := by
          show l0 ++ ['\n'] ++ (l1 ++ ['\n'] ++ []) = _
          simp [List.append_assoc]
        have hlst : (pyStrip block).getLast? = some '\n' := by
          rw [hjoin2, hshape, List.getLast?_concat]
        have := pyStrip_last_not_ws hlst
        exact absurd this (by decide)
      | cons r1 rest'' =>
        have hsuf : '\n' :: '\n' :: joinWith ['\n'] (r1 :: rest'') <:+ pyStrip block := by
          refine ⟨l0 ++ ['\n'] ++ l1, ?_⟩
          rw [hjoin2]
          show _ = l0 ++ ['\n'] ++ (l1 ++ ['\n'] ++ ([] ++ ['\n'] ++ joinWith ['\n'] (r1 :: rest'')))
          simp [List.append_assoc]
        have hocc := hnob _ hsuf
        simp [List.isPrefixOf] at hocc
    have htext_suf : joinWith ['\n'] (r0 :: rest') <:+ pyStrip block := by
      refine ⟨l0 ++ ['\n'] ++ l1 ++ ['\n'], ?_⟩
      rw [hjoin2]
      simp [List.append_assoc]
    have htext_ne : joinWith ['\n'] (r0 :: rest') ≠ [] := by
      cases rest' with
      | nil => exact hr0ne
      | cons r1 rest'' =>
        show r0 ++ ['\n'] ++ joinWith ['\n'] (r1 :: rest'') ≠ []
        simp
    have hnl_r0 : '\n' ∉ r0 := by
      apply not_mem_of_noOcc
      apply splitOnSep_pieces_noOcc (pyStrip block) (by simp)
      rw [hlines]
      simp
    have hhead_text : ∀ c, (joinWith ['\n'] (r0 :: rest')).head? = some c → c ≠ '\n' := by
      intro c hc
      have hh : (joinWith ['\n'] (r0 :: rest')).head? = r0.head? := by
        cases rest' with
        | nil => rfl
        | cons r1 rest'' =>
          show (r0 ++ ['\n'] ++ joinWith ['\n'] (r1 :: rest'')).head? = r0.head?
          rw [List.append_assoc]
          exact List.head?_append_of_ne_nil r0 hr0ne
      rw [hh] at hc
      intro hceq
      subst hceq
      apply hnl_r0
      cases r0 with
      | nil => simp at hc
      | cons a r0' =>
        simp only [List.head?_cons, Option.some.injEq] at hc
        exact hc ▸ List.mem_cons_self a r0'
    have hlast_text : ∀ c, (joinWith ['\n'] (r0 :: rest')).getLast? = some c → pyWs c = false := by
      intro c hc
      apply pyStrip_last_not_ws (s := block)
      rw [← getLast?_of_suffix htext_suf htext_ne]
      exact hc
    have hcr_text : '\r' ∉ joinWith ['\n'] (r0 :: rest') := by
      intro hmem
      apply hcr
      apply mem_of_mem_pyStrip (s := block)
      obtain ⟨a, ha⟩ := htext_suf
      rw [← ha]
      exact List.mem_append_right a hmem
    obtain ⟨htc1, htc2, _⟩ := matchTimecode_some hmt
    exact ⟨hdig, htc1, htc2, htext_ne, noOcc_of_suffix htext_suf hnob, hhead_text,
      hlast_text, hcr_text, rfl⟩

theorem parse_srt_wf {content : List Char} {sub : Subtitle}
    (h : sub ∈ parse_srt content) : SubtitleWF sub := by
  simp only [parse_srt] at h
  rw [List.mem_filterMap] at h
  obtain ⟨block, hbmem, hbp⟩ := h
  refine parseBlock_wf hbp (splitOnSep_pieces_noOcc _ (by simp) block hbmem) ?_
  intro hmem
  have hcr2 : '\r' ∉ replaceAll (replaceAll content ['\r', '\n'] ['\n']) ['\r'] ['\n'] :=
    not_mem_replaceAll_single (by decide)
  set c2 := replaceAll (replaceAll content ['\r', '\n'] ['\n']) ['\r'] ['\n'] with hc2
  have hj := joinWith_splitOnSep
    (if c2.getLast? = some '\n' then c2 else c2 ++ ['\n'])
    ['\n', '\n'] (by simp)
  have hmem2 : '\r' ∈ (if c2.getLast? = some '\n' then c2 else c2 ++ ['\n']) := by
    rw [← hj]
    exact mem_joinWith hbmem hmem
  by_cases hge : c2.getLast? = some '\n'
  · rw [if_pos hge] at hmem2
    exact hcr2 hmem2
  · rw [if_neg hge] at hmem2
    rcases List.mem_append.mp hmem2 with h1 | h1
    · exact hcr2 h1
    · simp at h1

theorem suffix_append_cases {t a b : List Char} (h : t <:+ a ++ b) :
    t <:+ b ∨ ∃ t', t = t' ++ b ∧ t' <:+ a ∧ t' ≠ [] := by
  obtain ⟨u, hu⟩ := h
  rcases List.append_eq_append_iff.mp hu with ⟨k, hk1, hk2⟩ | ⟨k, hk1, hk2⟩
  · rcases k with _ | ⟨y, k'⟩
    · left
      simp only [List.nil_append] at hk2
      rw [hk2]
    · right
      exact ⟨y :: k', hk2, ⟨u, hk1.symm⟩, by simp⟩
  · left
    exact ⟨k, hk2.symm⟩

theorem noOcc_append {a b pat : List Char} (h1 : NoHit a pat b) (h2 : NoOcc b pat) :
    NoOcc (a ++ b) pat := by
  intro t ht
  rcases suffix_append_cases ht with h | ⟨t', rfl, ht', hne⟩
  · exact h2 t h
  · obtain ⟨u, hu⟩ := ht'
    have := h1 u t' hu.symm hne
    exact this

theorem noHit_append {a b pat rest : List Char} (h1 : NoHit a pat (b ++ rest))
    (h2 : NoHit b pat rest) : NoHit (a ++ b) pat rest := by
  intro a1 a2 heq hne
  rcases List.append_eq_append_iff.mp heq with ⟨k, hk1, hk2⟩ | ⟨k, hk1, hk2⟩
  · exact h2 k a2 hk2 hne
  · rcases k with _ | ⟨y, k'⟩
    · simp only [List.nil_append] at hk2
      subst hk2
      exact h2 [] a2 rfl hne
    · have hout := h1 a1 (y :: k') hk1 (by simp)
      rw [hk2]
      simpa [List.append_assoc] using hout

theorem isPrefixOf_two_iff {p q : Char} {l : List Char} :
    (([p, q] : List Char).isPrefixOf l) = true ↔ ∃ t, l = p :: q :: t := by
  cases l with
  | nil => simp [List.isPrefixOf]
  | cons a l' =>
    cases l' with
    | nil => simp [List.isPrefixOf]
    | cons b l'' =>
      constructor
      · intro h
        simp only [List.isPrefixOf, Bool.and_eq_true, beq_iff_eq] at h
        exact ⟨l'', by rw [← h.1, ← h.2.1]⟩
      · intro h
        obtain ⟨t, ht⟩ := h
        injection ht with h1 ht
        injection ht with h2 ht
        subst h1
        subst h2
        simp [List.isPrefixOf]

theorem noHit_nlnl {pre rest : List Char} (h1 : NoOcc pre ['\n', '\n'])
    (h2 : ∀ c, pre.getLast? = some c → c ≠ '\n') : NoHit pre ['\n', '\n'] rest := by
  intro a1 a2 heq hne
  rcases List.eq_nil_or_concat a2 with h0 | ⟨a2', x, h0⟩
  · exact absurd h0 hne
  rw [List.concat_eq_append] at h0
  subst h0
  have hx : pre.getLast? = some x := by
    rw [heq, List.getLast?_append_of_ne_nil a1 (by simp)]
    exact List.getLast?_concat _
  have hxne := h2 x hx
  by_contra hcon
  rw [Bool.not_eq_false] at hcon
  obtain ⟨t, ht⟩ := isPrefixOf_two_iff.mp hcon
  rcases a2' with _ | ⟨y, a2''⟩
  · simp only [List.nil_append, List.cons_append] at ht
    injection ht with h3 _
    exact hxne h3
  · have hsuf : y :: (a2'' ++ [x]) <:+ pre := by
      refine ⟨a1, ?_⟩
      rw [heq]
      simp
    have hocc := h1 _ hsuf
    have hpre2 : (['\n', '\n'] : List Char).isPrefixOf (y :: (a2'' ++ [x])) = true := by
      rw [isPrefixOf_two_iff]
      simp only [List.cons_append, List.append_assoc, List.cons_append] at ht
      injection ht with h3 ht
      subst h3
      rcases a2'' with _ | ⟨z, a2t⟩
      · simp only [List.nil_append, List.cons_append] at ht ⊢
        injection ht with h4 _
        subst h4
        exact ⟨[], rfl⟩
      · simp only [List.cons_append] at ht ⊢
        injection ht with h4 _
        subst h4
        exact ⟨a2t ++ [x], rfl⟩
    rw [hpre2] at hocc
    exact absurd hocc (by simp)

theorem noHit_single_nl {rest : List Char} (hh : ∀ c, rest.head? = some c → c ≠ '\n') :
    NoHit ['\n'] ['\n', '\n'] rest := by
  intro a1 a2 heq hne
  have hsplit : a1 = [] ∧ a2 = ['\n'] := by
    rcases a1 with _ | ⟨x, a1'⟩
    · exact ⟨rfl, by simpa using heq.symm⟩
    · have hl := congrArg List.length heq
      have hl2 := listLenPos hne
      simp only [List.length_cons, List.length_nil, List.length_append] at hl
      omega
  obtain ⟨h1, h2⟩ := hsplit
  subst h1
  subst h2
  by_contra hcon
  rw [Bool.not_eq_false] at hcon
  obtain ⟨t, ht⟩ := isPrefixOf_two_iff.mp hcon
  simp only [List.singleton_append] at ht
  injection ht with _ ht
  exact hh '\n' (by rw [ht]; rfl) rfl

theorem noOcc_nl_single : NoOcc ['\n'] ['\n', '\n'] := by
  intro t ht
  obtain ⟨u, hu⟩ := ht
  rcases t with _ | ⟨x, t'⟩
  · simp [List.isPrefixOf]
  · have hl := congrArg List.length hu
    simp only [List.length_append, List.length_cons, List.length_nil] at hl
    have ht' : t' = [] := List.length_eq_zero.mp (by omega)
    subst ht'
    simp [List.isPrefixOf]

theorem srtBlock_facts {s : Subtitle} (h : SubtitleWF s) :
    NoOcc (srtBlock s) ['\n', '\n'] ∧
    (∀ c, (srtBlock s).getLast? = some c → pyWs c = false) ∧
    (∀ c, (srtBlock s).head? = some c → pyWs c = false) ∧
    '\r' ∉ srtBlock s := by
  obtain ⟨hdig, htc1, htc2, hne, hnoc, hhead, hlast, hcr, horig⟩ := h
  obtain ⟨hnne, hnall⟩ := pyIsDigit_facts hdig
  obtain ⟨hl1, hmem1, hhd1⟩ := tcCheck_facts htc1
  obtain ⟨hl2, hmem2, hhd2⟩ := tcCheck_facts htc2
  have hnl_num : '\n' ∉ s.number := by
    intro hm
    exact absurd (hnall _ hm) (by decide)
  have hnl_st : '\n' ∉ s.start_time := by
    intro hm
    rcases hmem1 _ hm with hd | hc | hc
    · exact absurd hd (by decide)
    · exact absurd hc (by decide)
    · exact absurd hc (by decide)
  have hnl_en : '\n' ∉ s.end_time := by
    intro hm
    rcases hmem2 _ hm with hd | hc | hc
    · exact absurd hd (by decide)
    · exact absurd hc (by decide)
    · exact absurd hc (by decide)
  have hst_ne : s.start_time ≠ [] := by
    intro h0
    rw [h0] at hl1
    simp at hl1
  have hform : srtBlock s = s.number ++ (['\n'] ++ (s.start_time ++ (" --> ".data ++
      (s.end_time ++ (['\n'] ++ s.text))))) := by
    unfold srtBlock
    simp [List.append_assoc]
  refine ⟨?_, ?_, ?_, ?_⟩
  · rw [hform]
    apply noOcc_append (noHit_of_head_not_mem hnl_num)
    apply noOcc_append (noHit_single_nl ?hd1)
    case hd1 =>
      intro c hc
      rw [List.head?_append_of_ne_nil s.start_time hst_ne] at hc
      have := hhd1 c hc
      intro h0
      subst h0
      exact absurd this (by decide)
    apply noOcc_append (noHit_of_head_not_mem hnl_st)
    apply noOcc_append (noHit_of_head_not_mem (by decide))
    apply noOcc_append (noHit_of_head_not_mem hnl_en)
    exact noOcc_append (noHit_single_nl hhead) hnoc
  · intro c hc
    apply hlast
    rw [← hc]
    unfold srtBlock
    rw [List.getLast?_append_of_ne_nil _ hne]
  · intro c hc
    rw [hform, List.head?_append_of_ne_nil s.number hnne] at hc
    have hcmem : c ∈ s.number := by
      cases hn : s.number with
      | nil => exact absurd hn hnne
      | cons a t =>
        rw [hn] at hc
        simp only [List.head?_cons, Option.some.injEq] at hc
        subst hc
        exact List.mem_cons_self a t
    exact digit_not_ws (hnall c hcmem)
  · intro hm
    rw [hform] at hm
    simp only [List.mem_append, List.mem_singleton] at hm
    rcases hm with h | h | h | h | h | h | h
    · exact absurd (hnall _ h) (by decide)
    · exact absurd h (by decide)
    · rcases hmem1 _ h with hd | hc | hc
      · exact absurd hd (by decide)
      · exact absurd hc (by decide)
      · exact absurd hc (by decide)
    · exact absurd h (by decide)
    · rcases hmem2 _ h with hd | hc | hc
      · exact absurd hd (by decide)
      · exact absurd hc (by decide)
      · exact absurd hc (by decide)
    · exact absurd h (by decide)
    · exact hcr h

theorem parseBlock_srtBlock {s : Subtitle} (h : SubtitleWF s) :
    parseBlock (srtBlock s) = some s ∧ parseBlock (srtBlock s ++ ['\n']) = some s := by
  obtain ⟨hnoc_b, hlast_b, hhead_b, _⟩ := srtBlock_facts h
  obtain ⟨hdig, htc1, htc2, hne, hnoc, hhead, hlast, hcr, horig⟩ := h
  obtain ⟨hnne, hnall⟩ := pyIsDigit_facts hdig
  obtain ⟨hl1, hmem1, hhd1⟩ := tcCheck_facts htc1
  obtain ⟨hl2, hmem2, hhd2⟩ := tcCheck_facts htc2
  have hnl_num : '\n' ∉ s.number := by
    intro hm
    exact absurd (hnall _ hm) (by decide)
  have hnl_tl : '\n' ∉ s.start_time ++ " --> ".data ++ s.end_time := by
    intro hm
    simp only [List.mem_append] at hm
    rcases hm with (h | h) | h
    · rcases hmem1 _ h with hd | hc | hc
      · exact absurd hd (by decide)
      · exact absurd hc (by decide)
      · exact absurd hc (by decide)
    · exact absurd h (by decide)
    · rcases hmem2 _ h with hd | hc | hc
      · exact absurd hd (by decide)
      · exact absurd hc (by decide)
      · exact absurd hc (by decide)
  have hbne : srtBlock s ≠ [] := by
    unfold srtBlock
    intro h0
    simp only [List.append_eq_nil] at h0
    exact hnne h0.1.1.1.1.1.1
  have hlines : splitOnSep (srtBlock s) ['\n'] =
      s.number :: (s.start_time ++ " --> ".data ++ s.end_time) :: splitOnSep s.text ['\n'] := by
    have h1 : srtBlock s = s.number ++ ['\n'] ++
        ((s.start_time ++ " --> ".data ++ s.end_time) ++ ['\n'] ++ s.text) := by
      unfold srtBlock
      simp [List.append_assoc]
    rw [h1, splitOnSep_append_sep (by simp) (noHit_of_head_not_mem hnl_num),
      splitOnSep_append_sep (by simp) (noHit_of_head_not_mem hnl_tl)]
  have hcore : ∀ b, pyStrip b = srtBlock s → parseBlock b = some s := by
    intro b hb
    simp only [parseBlock, hb]
    rw [if_neg (fun hemp => hbne (List.isEmpty_iff.mp hemp))]
    rw [hlines]
    have hTLne := splitOnSep_ne_nil s.text ['\n']
    have hlen3 : ¬ (s.number :: (s.start_time ++ " --> ".data ++ s.end_time) ::
        splitOnSep s.text ['\n']).length < 3 := by
      simp only [List.length_cons]
      have := listLenPos hTLne
      omega
    rw [if_neg hlen3]
    dsimp only
    rw [if_neg (by simp [hdig])]
    rw [matchTimecode_build htc1 htc2]
    dsimp only
    rw [joinWith_splitOnSep _ _ (by simp)]
    rw [show s = ⟨s.number, s.start_time, s.end_time, s.text, s.original_text⟩ from rfl]
    rw [horig]
  refine ⟨hcore _ ?_, hcore _ ?_⟩
  · exact pyStrip_eq_self hhead_b hlast_b
  · rw [pyStrip_append_ws (by decide)]
    exact pyStrip_eq_self hhead_b hlast_b

theorem reconstruct_srt_cons (a b : Subtitle) (l : List Subtitle) :
    reconstruct_srt (a :: b :: l) =
      srtBlock a ++ ['\n'] ++ (['\n'] ++ reconstruct_srt (b :: l)) := by
  show joinWith ['\n'] (_ :: _ :: _) = _
  rw [joinWith_cons (by simp)]
  show srtBlock a ++ ['\n'] ++ ['\n'] ++ reconstruct_srt (b :: l) =
    srtBlock a ++ ['\n'] ++ (['\n'] ++ reconstruct_srt (b :: l))
  simp only [List.append_assoc]

theorem mem_of_mem_joinWith {sep : List Char} {x : Char} : ∀ {L : List (List Char)},
    x ∈ joinWith sep L → (∃ p ∈ L, x ∈ p) ∨ x ∈ sep := by
  intro L
  induction L with
  | nil => intro h; simp [joinWith] at h
  | cons q L' ih =>
    intro h
    cases L' with
    | nil => exact Or.inl ⟨q, by simp, h⟩
    | cons r L'' =>
      rw [show joinWith sep (q :: r :: L'') = q ++ sep ++ joinWith sep (r :: L'') from rfl] at h
      rcases List.mem_append.mp h with h1 | h1
      · rcases List.mem_append.mp h1 with h2 | h2
        · exact Or.inl ⟨q, by simp, h2⟩
        · exact Or.inr h2
      · rcases ih h1 with ⟨p, hp, hxp⟩ | h2
        · exact Or.inl ⟨p, by simp [hp], hxp⟩
        · exact Or.inr h2

theorem not_mem_cr_reconstruct {subs : List Subtitle} (h : ∀ x ∈ subs, SubtitleWF x) :
    '\r' ∉ reconstruct_srt subs := by
  intro hm
  rcases mem_of_mem_joinWith hm with ⟨p, hp, hxp⟩ | hsep
  · rw [List.mem_map] at hp
    obtain ⟨x, hx, rfl⟩ := hp
    have hfacts := (srtBlock_facts (h x hx)).2.2.2
    rcases List.mem_append.mp (show '\r' ∈ srtBlock x ++ ['\n'] from hxp) with h1 | h1
    · exact hfacts h1
    · simp at h1
  · simp at hsep

theorem reconstruct_getLast : ∀ (subs : List Subtitle), subs ≠ [] →
    (reconstruct_srt subs).getLast? = some '\n' := by
  intro subs
  induction subs with
  | nil => intro h0; exact absurd rfl h0
  | cons a rest ih =>
    intro _
    cases rest with
    | nil =>
      show (srtBlock a ++ ['\n']).getLast? = some '\n'
      exact List.getLast?_concat _
    | cons b rest' =>
      rw [reconstruct_srt_cons]
      have hR := ih (by simp)
      have hRne : reconstruct_srt (b :: rest') ≠ [] := by
        intro h0
        rw [h0] at hR
        simp at hR
      rw [List.getLast?_append_of_ne_nil _ (by simp)]
      rw [List.getLast?_append_of_ne_nil _ hRne]
      exact hR

theorem parse_blocks : ∀ (subs : List Subtitle), subs ≠ [] → (∀ x ∈ subs, SubtitleWF x) →
    (splitOnSep (reconstruct_srt subs) ['\n', '\n']).filterMap parseBlock = subs := by
  intro subs
  induction subs with
  | nil => intro h0; exact absurd rfl h0
  | cons a rest ih =>
    intro _ hwf
    have hwa := hwf a (List.mem_cons_self a rest)
    obtain ⟨hnoc_b, hlast_b, hhead_b, _⟩ := srtBlock_facts hwa
    have hlast_ne_nl : ∀ c, (srtBlock a).getLast? = some c → c ≠ '\n' := by
      intro c hc h0
      subst h0
      exact absurd (hlast_b '\n' hc) (by decide)
    cases rest with
    | nil =>
      rw [show reconstruct_srt [a] = srtBlock a ++ ['\n'] from rfl]
      rw [splitOnSep_of_noOcc (noOcc_append (noHit_nlnl hnoc_b hlast_ne_nl) noOcc_nl_single)]
      simp [List.filterMap_cons, (parseBlock_srtBlock hwa).2]
    | cons b rest' =>
      rw [reconstruct_srt_cons a b rest']
      have hsh : srtBlock a ++ ['\n'] ++ (['\n'] ++ reconstruct_srt (b :: rest')) =
          srtBlock a ++ ['\n', '\n'] ++ reconstruct_srt (b :: rest') := by
        simp
      rw [hsh, splitOnSep_append_sep (by simp) (noHit_nlnl hnoc_b hlast_ne_nl)]
      simp only [List.filterMap_cons, (parseBlock_srtBlock hwa).1]
      rw [ih (by simp) (fun x hx => hwf x (List.mem_cons_of_mem a hx))]

theorem parse_srt_reconstruct {subs : List Subtitle} (h : ∀ x ∈ subs, SubtitleWF x) :
    parse_srt (reconstruct_srt subs) = subs := by
  cases subs with
  | nil => rfl
  | cons a rest =>
    have hcr : '\r' ∉ reconstruct_srt (a :: rest) := not_mem_cr_reconstruct h
    have hc1 : replaceAll (reconstruct_srt (a :: rest)) ['\r', '\n'] ['\n'] =
        reconstruct_srt (a :: rest) :=
      replaceAll_id_of_noOcc (noOcc_of_head_not_mem hcr)
    have hc2 : replaceAll (reconstruct_srt (a :: rest)) ['\r'] ['\n'] =
        reconstruct_srt (a :: rest) :=
      replaceAll_id_of_noOcc (noOcc_of_head_not_mem hcr)
    have hlastnl := reconstruct_getLast (a :: rest) (by simp)
    simp only [parse_srt, hc1, hc2, if_pos hlastnl]
    exact parse_blocks _ (by simp) h

/-- Claim C5 (amended): the SRT round trip holds at the parse level, not
at the text level: re-parsing the reconstruction of a parse yields exactly
the parsed subtitles (`parse_srt ∘ reconstruct_srt ∘ parse_srt =
parse_srt`, for every input, including inputs that parse to nothing). The
claim's textual equality — `reconstruct_srt (parse_srt s) = s` up to
normalised line endings and a single trailing newline — fails, because
parsing also normalises the whitespace around `-->` in the timecode line
(the pattern accepts `\s*-->\s*` while reconstruction always emits
` --> `), discards text after the second timecode, drops malformed blocks
and collapses runs of blank lines; see the counterexample. -/
theorem claim_C5_srt_roundtrip (s : List Char) :
    parse_srt (reconstruct_srt (parse_srt s)) = parse_srt s :=
  parse_srt_reconstruct (fun _ hx => parse_srt_wf hx)

/-- Counterexample to C5 as stated: the SRT content
`"1\n00:00:00,000  -->  00:00:01,000\nHi\n"` (two spaces on each side of
`-->`) parses successfully, but its reconstruction normalises the
timecode separator to single spaces, so the round trip differs from the
original even after normalising line endings and the trailing newline
(`normLE`). -/
theorem claim_C5_counterexample :
    parse_srt "1\n00:00:00,000  -->  00:00:01,000\nHi\n".data ≠ [] ∧
    normLE (reconstruct_srt (parse_srt "1\n00:00:00,000  -->  00:00:01,000\nHi\n".data)) ≠
      normLE "1\n00:00:00,000  -->  00:00:01,000\nHi\n".data := by
  decide
